import Mathlib

/-!
Verification of the aiida-analyser core: process-tree snapshots, the generic
fault locator, the specialized analyser checklists, signature-based error
reclassification, cleanup gating, and the group aggregation merge.

The Python sources are shallowly embedded: AiiDA nodes become `ExecRecord`
values carrying the fields the analysers read, `ProcessTree` becomes the
nested inductive `PTree`, and each analyser method becomes a Lean function
over `PTree`.  External collaborators (working-directory cleanup, node
deletion, the stability hook that reads calculation outputs) are modelled as
explicit inputs.  `dict` results of the aggregator become association lists
over a `Key`/`Val` value type, and the aliasing behaviour of
`recursive_merge` is additionally modelled over an explicit heap.
-/

/-- Diagnosis codes: either a native integer exit status or a symbolic
classification label (the Python code stores both in the same slot). -/
inductive Code where
  | int (i : Int)
  | sym (s : String)
deriving DecidableEq, Repr

/-- String form of a code, as Python f-string interpolation renders it. -/
def Code.toStr : Code → String
  | .int i => toString i
  | .sym s => s

/-- The fields of an AiiDA process node (WorkChainNode / CalcJobNode) that the
analysers read.  `isCalcJob` stands for
`node_type == 'process.calculation.calcjob.CalcJobNode.'`; `aiidaOut` and
`schedulerStderr` are `none` when the corresponding fetch raises (the Python
code catches that and substitutes the empty string); `stability` models the
`PhBaseWorkChainAnalyser.is_stable` hook, `Except.error e` standing for a
raised exception with text `e`. -/
structure ExecRecord where
  isCalcJob : Bool
  finishedOk : Bool
  exitStatus : Int
  exitMessage : String
  processLabel : String
  aiidaOut : Option String
  schedulerStderr : Option String
  stability : Except String (Bool × Nat × Nat)
  pk : Nat
  uuid : String
deriving Repr

/-- The `ProcessTree` snapshot from `base.py`: a node name (link label, root
defaults to `"ROOT"`), the underlying record, and the children in insertion
order (ascending creation time). -/
inductive PTree where
  | mk (name : String) (record : ExecRecord) (children : List PTree)
deriving Repr

def PTree.name : PTree → String
  | .mk n _ _ => n

def PTree.record : PTree → ExecRecord
  | .mk _ r _ => r

def PTree.children : PTree → List PTree
  | .mk _ _ cs => cs

/-- Rebuilding the tree from a node, as `analyser.process_tree` does with
`ProcessTree(self.node)`: same graph, root renamed to the default `"ROOT"`. -/
def PTree.reroot : PTree → PTree
  | .mk _ r cs => .mk "ROOT" r cs

/-- Child lookup by link label (`ProcessTree.__getitem__` /
`ProcessTree.__getattr__`: the children dict is keyed by the child name). -/
def PTree.lookupChild (t : PTree) (s : String) : Option PTree :=
  t.children.find? (fun c => c.name == s)

@[simp] theorem PTree.name_mk (n : String) (r : ExecRecord) (cs : List PTree) :
    (PTree.mk n r cs).name = n := rfl

@[simp] theorem PTree.record_mk (n : String) (r : ExecRecord) (cs : List PTree) :
    (PTree.mk n r cs).record = r := rfl

@[simp] theorem PTree.children_mk (n : String) (r : ExecRecord) (cs : List PTree) :
    (PTree.mk n r cs).children = cs := rfl

@[simp] theorem PTree.record_reroot (t : PTree) : t.reroot.record = t.record := by
  cases t; rfl

@[simp] theorem PTree.name_reroot (t : PTree) : t.reroot.name = "ROOT" := by
  cases t; rfl

@[simp] theorem PTree.children_reroot (t : PTree) : t.reroot.children = t.children := by
  cases t; rfl

@[simp] theorem PTree.reroot_reroot (t : PTree) : t.reroot.reroot = t.reroot := by
  cases t; rfl

/-- Path concatenation as in `traverse_and_check`:
`f"{current_path}/{node.name}" if current_path else node.name`. -/
def pathJoin (cp name : String) : String :=
  if cp = "" then name else cp ++ "/" ++ name

mutual

/-- The fault locator `ProcessTree.traverse_and_check` (base.py): pre-order
depth-first search for the first CalcJobNode that is not finished ok,
returning the slash-joined path (including the current node's name) and the
node. -/
def traverse_and_check (node : PTree) (current_path : String) :
    Option (String × PTree) :=
  match node with
  | .mk name record cs =>
    let new_path := pathJoin current_path name
    if record.isCalcJob && !record.finishedOk then
      some (new_path, .mk name record cs)
    else
      traverseChildren cs new_path
termination_by structural node

/-- Iteration over `node.children.values()` inside `traverse_and_check`:
return the first positive result among the children. -/
def traverseChildren (cs : List PTree) (p : String) : Option (String × PTree) :=
  match cs with
  | [] => none
  | c :: rest =>
    match traverse_and_check c p with
    | some r => some r
    | none => traverseChildren rest p
termination_by structural cs

end

namespace BaseWorkChainAnalyser

/-- `BaseWorkChainAnalyser.get_state` (base.py lines 351-362): success check on
the root record, then the fault locator over `self.process_tree` (root named
`"ROOT"`) with `current_path=''`; unknown when the locator finds nothing. -/
def get_state (n : PTree) : String × Code × String :=
  if n.record.finishedOk then ("ROOT", Code.int 0, "finished OK")
  else
    match traverse_and_check n.reroot "" with
    | none => ("ROOT", Code.int (-1), "Unknown status")
    | some (path, m) => (path, Code.int m.record.exitStatus, m.record.exitMessage)

end BaseWorkChainAnalyser

/-- Modelled from the spec: the method `_get_state_from_tree` is called by
`pw_base.py`, `ph_base.py`, `wannier90.py`, `pw_bands.py`, `thermo_pw.py` and
`supercon.py` but its definition is absent from the sources.  Spec section 4.3
specifies it as the generic diagnosis state machine — root success, else the
fault locator of section 4.2, else unknown — which is exactly the body of
`BaseWorkChainAnalyser.get_state` present in `base.py`; we model it as that
function. -/
def getStateFromTree (n : PTree) : String × Code × String :=
  if n.record.finishedOk then ("ROOT", Code.int 0, "finished OK")
  else
    match traverse_and_check n.reroot "" with
    | none => ("ROOT", Code.int (-1), "Unknown status")
    | some (path, m) => (path, Code.int m.record.exitStatus, m.record.exitMessage)

mutual

/-- Node count of a tree (used as a termination measure for the BFS queue). -/
def PTree.size : PTree → Nat
  | .mk _ _ cs => 1 + sizeListPT cs
termination_by structural t => t

/-- Total node count of a list of trees. -/
def sizeListPT : List PTree → Nat
  | [] => 0
  | t :: ts => t.size + sizeListPT ts
termination_by structural ts => ts

end

@[simp] theorem PTree.size_mk (n : String) (r : ExecRecord) (cs : List PTree) :
    (PTree.mk n r cs).size = 1 + sizeListPT cs := by
  simp [PTree.size]

@[simp] theorem sizeListPT_nil : sizeListPT [] = 0 := rfl

@[simp] theorem sizeListPT_cons (t : PTree) (ts : List PTree) :
    sizeListPT (t :: ts) = t.size + sizeListPT ts := rfl

theorem sizeListPT_append (a b : List PTree) :
    sizeListPT (a ++ b) = sizeListPT a + sizeListPT b := by
  induction a with
  | nil => simp
  | cons t ts ih => simp [ih]; omega

theorem PTree.size_pos (t : PTree) : 0 < t.size := by
  cases t; simp

theorem sizeListPT_children_lt (t : PTree) : sizeListPT t.children < t.size := by
  cases t; simp

/-- Concatenated children of a list of trees (one BFS level down). -/
def childrenAll : List PTree → List PTree
  | [] => []
  | t :: ts => t.children ++ childrenAll ts

@[simp] theorem childrenAll_nil : childrenAll [] = [] := rfl

@[simp] theorem childrenAll_cons (t : PTree) (ts : List PTree) :
    childrenAll (t :: ts) = t.children ++ childrenAll ts := rfl

theorem childrenAll_append (a b : List PTree) :
    childrenAll (a ++ b) = childrenAll a ++ childrenAll b := by
  induction a with
  | nil => simp
  | cons t ts ih => simp [ih]

theorem bfs_queue_measure (t : PTree) (rest : List PTree) :
    sizeListPT (rest ++ t.children) < sizeListPT (t :: rest) := by
  have h := sizeListPT_children_lt t
  simp [sizeListPT_append]
  omega

theorem levels_measure (t : PTree) (rest : List PTree) :
    sizeListPT (childrenAll (t :: rest)) < sizeListPT (t :: rest) := by
  have h1 := sizeListPT_children_lt t
  have h2 : sizeListPT (childrenAll rest) ≤ sizeListPT rest := by
    induction rest with
    | nil => simp
    | cons x xs ih =>
      have := sizeListPT_children_lt x
      simp only [childrenAll_cons, sizeListPT_append, sizeListPT_cons]
      omega
  simp [sizeListPT_append]
  omega

/-- The queue loop of `ProcessTree.find_last_node` (base.py): pop the front,
remember it as the last visited node, enqueue its children. -/
def bfs_last (q : List PTree) (last : PTree) : PTree :=
  match q with
  | [] => last
  | t :: rest => bfs_last (rest ++ t.children) t
termination_by sizeListPT q
decreasing_by exact bfs_queue_measure _ _

/-- `ProcessTree.find_last_node` (base.py lines 105-117): BFS from the node
itself, returning the node visited last. -/
def find_last_node (t : PTree) : PTree := bfs_last [t] t

/-- BFS visiting order of the queue loop of `find_last_node`. -/
def bfsList (q : List PTree) : List PTree :=
  match q with
  | [] => []
  | t :: rest => t :: bfsList (rest ++ t.children)
termination_by sizeListPT q
decreasing_by exact bfs_queue_measure _ _

/-- Level-order listing: the queue contents, then all strictly deeper levels. -/
def levelsFrom (q : List PTree) : List PTree :=
  match q with
  | [] => []
  | t :: rest => (t :: rest) ++ levelsFrom (childrenAll (t :: rest))
termination_by sizeListPT q
decreasing_by exact levels_measure _ _

theorem mem_of_getLast?_eq {α : Type} {l : List α} {a : α}
    (h : l.getLast? = some a) : a ∈ l := by
  have hm : a ∈ l.getLast? := by rw [h]; rfl
  rcases List.mem_getLast?_eq_getLast hm with ⟨hne, hh⟩
  subst hh
  exact List.getLast_mem hne

theorem size_le_of_mem {c : PTree} {cs : List PTree} (h : c ∈ cs) :
    c.size ≤ sizeListPT cs := by
  induction cs with
  | nil => simp at h
  | cons x xs ih =>
    rcases List.mem_cons.mp h with h1 | h2
    · subst h1; simp
    · have := ih h2; simp; omega

theorem lastDescent_measure (t c : PTree) (h : t.children.getLast? = some c) :
    c.size < t.size := by
  have hmem := mem_of_getLast?_eq h
  have h1 := size_le_of_mem hmem
  have h2 := sizeListPT_children_lt t
  omega

/-- Descent that repeatedly takes the last-inserted child until reaching a
childless node (the spec's alternative reading of `find_last_node`). -/
def lastDescent (t : PTree) : PTree :=
  match h : t.children.getLast? with
  | none => t
  | some c => lastDescent c
termination_by t.size
decreasing_by exact lastDescent_measure _ _ h

/-- Boolean list-prefix test (used for substring containment). -/
def listIsPrefixOfB : List Char → List Char → Bool
  | [], _ => true
  | _ :: _, [] => false
  | a :: as, b :: bs => a == b && listIsPrefixOfB as bs

/-- Boolean contiguous-sublist test. -/
def listIsInfixOfB (pat : List Char) : List Char → Bool
  | [] => listIsPrefixOfB pat []
  | b :: bs => listIsPrefixOfB pat (b :: bs) || listIsInfixOfB pat bs

/-- Substring containment, modelling the Python `pat in hay` test on `str`. -/
def strContains (hay pat : String) : Bool :=
  listIsInfixOfB pat.toList hay.toList

namespace PwBaseWorkChainAnalyser

/-- `PwBaseWorkChainAnalyser.get_state` (pw_base.py): delegates to
`_get_state_from_tree` (the caught `AttributeError`/`ValueError` branch is
unreachable in the total model) and returns its triple unchanged. -/
def get_state (n : PTree) : String × Code × String :=
  getStateFromTree n

end PwBaseWorkChainAnalyser

namespace ProjwfcBaseWorkChainAnalyser

/-- Modelled from the spec: the file `projwfc_base.py` defining
`ProjwfcBaseWorkChainAnalyser` (imported by `wannier90.py`) is absent from the
sources.  Per spec sections 4.3-4.4, a base workchain analyser with no
declared checklist of its own defers to the generic diagnosis state machine. -/
def get_state (n : PTree) : String × Code × String :=
  getStateFromTree n

end ProjwfcBaseWorkChainAnalyser

namespace Pw2Wannier90BaseWorkChainAnalyser

/-- Modelled from the spec: the file `pw2wannier90_base.py` defining
`Pw2Wannier90BaseWorkChainAnalyser` (imported by `wannier90.py`) is absent
from the sources.  Per spec sections 4.3-4.4 it defers to the generic
diagnosis state machine. -/
def get_state (n : PTree) : String × Code × String :=
  getStateFromTree n

end Pw2Wannier90BaseWorkChainAnalyser

namespace Wannier90BaseWorkChainAnalyser

/-- Modelled from the spec: the file `wannier90_base.py` defining
`Wannier90BaseWorkChainAnalyser` (imported by `wannier90.py`) is absent from
the sources.  Per spec sections 4.3-4.4 it defers to the generic diagnosis
state machine. -/
def get_state (n : PTree) : String × Code × String :=
  getStateFromTree n

end Wannier90BaseWorkChainAnalyser

namespace EpwBaseWorkChainAnalyser

/-- `EpwBaseWorkChainAnalyser` (epw_base.py) declares no `get_state` override,
so it inherits `BaseWorkChainAnalyser.get_state`. -/
def get_state (n : PTree) : String × Code × String :=
  BaseWorkChainAnalyser.get_state n

end EpwBaseWorkChainAnalyser

namespace Wannier90WorkChainAnalyser

/-- The declared subprocess list of `Wannier90WorkChainAnalyser.get_state`
(wannier90.py lines 81-88): `(name, required)` pairs in execution order. -/
def subprocesses : List (String × Bool) :=
  [("scf", true), ("nscf", true), ("projwfc", false),
   ("wannier90_pp", true), ("pw2wannier90", true), ("wannier90", true)]

/-- The per-subprocess analyser dispatch of `wannier90.py` lines 101-117. -/
def dispatch (s : String) (c : PTree) : String × Code × String :=
  if s = "scf" ∨ s = "nscf" then PwBaseWorkChainAnalyser.get_state c
  else if s = "projwfc" then ProjwfcBaseWorkChainAnalyser.get_state c
  else if s = "pw2wannier90" then Pw2Wannier90BaseWorkChainAnalyser.get_state c
  else if s = "wannier90_pp" ∨ s = "wannier90" then
    Wannier90BaseWorkChainAnalyser.get_state c
  else getStateFromTree c

/-- The checklist loop of `Wannier90WorkChainAnalyser.get_state` (wannier90.py
lines 91-127): first present-and-unsuccessful subprocess wins and its label is
prefixed to (or, for the `"ROOT"` sentinel, substituted for) the sub-result
path; an absent required subprocess falls back to `_get_state_from_tree`; an
exhausted list falls back likewise. -/
def walk (t : PTree) : List (String × Bool) → String × Code × String
  | [] => getStateFromTree t
  | (s, required) :: rest =>
    match t.lookupChild s with
    | some c =>
      if c.record.finishedOk then walk t rest
      else
        let r := dispatch s c
        (if r.1 = "ROOT" then s else s ++ "/" ++ r.1, r.2.1, r.2.2)
    | none => if required then getStateFromTree t else walk t rest

/-- `Wannier90WorkChainAnalyser.get_state` (wannier90.py lines 71-127). -/
def get_state (n : PTree) : String × Code × String :=
  if n.record.finishedOk then ("ROOT", Code.int 0, "finished OK")
  else walk n.reroot subprocesses

end Wannier90WorkChainAnalyser

namespace PhBaseWorkChainAnalyser

/-- The ordered stdout signature rules of `ph_base.py` lines 139-150:
`(symbolic label, substring)` pairs, first match wins. -/
def error_rules : List (String × String) :=
  [("ERROR_FIND_MODE_SYM", "Error in routine find_mode_sym (1)"),
   ("ERROR_SET_IRR_SYM_NEW", "Error in routine set_irr_sym_new (922)"),
   ("ERROR_WRONG_REPRESENTATION", "Error in routine set_irr_sym_new (822)"),
   ("ERROR_CDIAGHG", "Error in routine cdiaghg (4)"),
   ("ERROR_S_MATRIX_NOT_POSITIVE_DEFINITE", "Error in routine cdiaghg (126)"),
   ("ERROR_PHQ_SETUP", "Error in routine phq_setup (1)"),
   ("ERROR_Q_POINTS", "Error in routine q_points (1)"),
   ("ERROR_DAVCIO", "Error in routine davcio (99)"),
   ("ERROR_CHECK_ALL_CONVT", "Error in routine check_all_convt (1)"),
   ("ERROR_READ_WFC", "Error in routine read_wfc (29)")]

/-- First-match scan of an ordered (label, substring) rule list over a text,
as the `for error_flag, error_message in [...]` loop with `break` does. -/
def firstMatch (rules : List (String × String)) (text : String) : Option String :=
  match rules with
  | [] => none
  | (flag, sig) :: rest =>
    if strContains text sig then some flag else firstMatch rest text

/-- The trailing success-path stability hook of `ph_base.py` lines 172-181:
on code `0`, consult `is_stable`; instability overrides the code to
`UNSTABLE`, a raised exception only appends a note. -/
def stabilityStep (n : PTree) (path : String) (es : Code) (msg : String) :
    String × Code × String :=
  if es = Code.int 0 then
    match n.record.stability with
    | .ok (is_stable, _, _) =>
      if is_stable then (path, es, msg)
      else (path, Code.sym "UNSTABLE",
        msg ++ "\n    Phonon is unstable from `ph_base`.")
    | .error e => (path, es, msg ++ " (Stability check failed: " ++ e ++ ")")
  else (path, es, msg)

/-- `PhBaseWorkChainAnalyser.get_state` (ph_base.py lines 109-182): generic
diagnosis, then for the generic code 312 a reclassification pass over the
last-executed node's stdout/stderr (aborted with a note when that node is not
a `PhCalculation`), then the success-path stability hook.  The modelled
`_get_state_from_tree` is total, so the caught
`AttributeError`/`ValueError` branch and the outer `except Exception` of the
312 analysis are unreachable. -/
def get_state (n : PTree) : String × Code × String :=
  let r0 := getStateFromTree n
  let path := r0.1
  let es0 := r0.2.1
  let msg0 := r0.2.2
  if es0 = Code.int 312 then
    let last := find_last_node n.reroot
    if last.record.processLabel ≠ "PhCalculation" then
      (path, es0,
        msg0 ++ " (Last node is " ++ last.record.processLabel ++
          ", not PhCalculation)")
    else
      let aiida_out := last.record.aiidaOut.getD ""
      let stderr := last.record.schedulerStderr.getD ""
      match firstMatch error_rules aiida_out with
      | some flag =>
        stabilityStep n path (Code.sym flag)
          (msg0 ++ " (Detected: " ++ flag ++ ")")
      | none =>
        if strContains stderr "TIME LIMIT" then
          stabilityStep n path (Code.sym "SCHEDULER_TIME_LIMIT")
            (msg0 ++ " (Scheduler time limit reached)")
        else if strContains stderr "process killed" then
          stabilityStep n path (Code.sym "KILLED_BY_SCHEDULER")
            (msg0 ++ " (Process killed by scheduler)")
        else
          stabilityStep n path (Code.int (-1))
            (msg0 ++ " (Unable to determine specific error)")
  else stabilityStep n path es0 msg0

end PhBaseWorkChainAnalyser

namespace EpwPrepWorkChainAnalyser

/-- The declared subprocess list of `EpwPrepWorkChainAnalyser.get_state`
(epw_prep.py lines 81-86): `(name, analyser get_state)` pairs in order. -/
def subprocesses : List (String × (PTree → String × Code × String)) :=
  [("w90_bands", Wannier90WorkChainAnalyser.get_state),
   ("ph_base", PhBaseWorkChainAnalyser.get_state),
   ("epw_base", EpwBaseWorkChainAnalyser.get_state),
   ("epw_bands", EpwBaseWorkChainAnalyser.get_state)]

/-- The checklist loop of `epw_prep.py` lines 81-93: the first subprocess
present in the tree and not finished ok is delegated to its analyser and the
sub-result is returned unchanged (no label prefixed); absent or successful
subprocesses are skipped. -/
def walk (t : PTree) :
    List (String × (PTree → String × Code × String)) →
      Option (String × Code × String)
  | [] => none
  | (s, analyse) :: rest =>
    match t.lookupChild s with
    | some c =>
      if c.record.finishedOk then walk t rest else some (analyse c)
    | none => walk t rest

/-- `EpwPrepWorkChainAnalyser.get_state` (epw_prep.py lines 75-95): root
success short-circuit, the checklist loop, and the final
`raise ValueError(f'Unknown exit status: {self.node.exit_status}')` modelled
as `Except.error`. -/
def get_state (n : PTree) : Except String (String × Code × String) :=
  if n.record.finishedOk then .ok ("ROOT", Code.int 0, "finished OK")
  else
    match walk n.reroot subprocesses with
    | some r => .ok r
    | none => .error ("Unknown exit status: " ++ toString n.record.exitStatus)

end EpwPrepWorkChainAnalyser

/-- External mutation calls issued by `clean_workchain`: the working-directory
cleanup collaborator `clean_workdir(node, dry_run)` and the deletion
collaborator `delete_nodes([pk], dry_run)`. -/
inductive Effect where
  | cleanWorkdir (pk : Nat) (dryRun : Bool)
  | deleteNodes (pks : List Nat) (dryRun : Bool)
deriving DecidableEq, Repr

/-- Results the two cleanup collaborators would report (the lists of cleaned
calculation identities and deleted node identities). -/
structure CleanEnv where
  cleanedCalcs : List Nat
  deletedNodes : List Nat

namespace BaseWorkChainAnalyser

/-- `BaseWorkChainAnalyser.clean_workchain` (base.py lines 412-427): compute
the diagnosis, refuse with `(message, False)` when the status is exempted,
otherwise call the two collaborators and report `(message, True)`.  The
returned effect list records the collaborator calls actually issued. -/
def clean_workchain (env : CleanEnv) (n : PTree) (exempted_states : List Code)
    (dry_run : Bool) : (String × Bool) × List Effect :=
  let r := get_state n
  let path := r.1
  let status := r.2.1
  let message := "Process<" ++ toString n.record.pk ++ "> is now " ++
    status.toStr ++ " at " ++ path ++
    ". Please check if you really want to clean this workchain.\n"
  if status ∈ exempted_states then ((message, false), [])
  else
    let message := message ++ "Cleaned the workchain <" ++
      toString n.record.pk ++ ">:\n" ++ "  " ++
      String.intercalate " " (env.cleanedCalcs.map toString) ++ "\n" ++
      "Deleted the workchain <" ++ toString n.record.pk ++ ">:\n" ++ "  " ++
      String.intercalate " " (env.deletedNodes.map toString)
    ((message, true),
     [Effect.cleanWorkdir n.record.pk dry_run,
      Effect.deleteNodes [n.record.pk] dry_run])

end BaseWorkChainAnalyser

/-- Dictionary keys of the aggregation report: Python uses both strings
(paths, `'message'`, `'nodes'`, symbolic codes) and integers (native exit
statuses) as keys. -/
inductive Key where
  | ks (s : String)
  | ki (i : Int)
deriving DecidableEq, Repr

/-- JSON-like values of the aggregation report. -/
inductive Val where
  | vstr (s : String)
  | vlist (l : List Val)
  | vdict (entries : List (Key × Val))
deriving Repr

/-- Dictionary lookup `merged[key]` on an insertion-ordered association list. -/
def lookupVal : List (Key × Val) → Key → Option Val
  | [], _ => none
  | (k', v) :: rest, k => if k' = k then some v else lookupVal rest k

/-- Dictionary update `merged[key] = v` for a key already present: replace in
place, keeping insertion order. -/
def setInPlace : List (Key × Val) → Key → Val → List (Key × Val)
  | [], _, _ => []
  | (k', v') :: rest, k, v =>
    if k' = k then (k', v) :: rest else (k', v') :: setInPlace rest k v

mutual

/-- `recursive_merge` (group.py lines 6-48) at the level of dictionary values:
start from (a deep copy of) `d1` and fold `d2` in; mappings merge
recursively, lists concatenate, any other conflict is overwritten by the
`d2` value, and keys new to `d1` are appended.  Deep copies are identities at
value level (aliasing is modelled separately on the heap below). -/
def recursive_merge : List (Key × Val) → List (Key × Val) → List (Key × Val)
  | merged, [] => merged
  | merged, (k, v2) :: rest =>
    recursive_merge (mergeValInto merged k (lookupVal merged k) v2) rest
termination_by structural _d1 d2 => d2

/-- The merge-rule dispatch of `recursive_merge`, given the looked-up present
value (if any): both mappings means a recursive merge, both lists means
concatenation, any other present value is overwritten, and an absent key is
appended. -/
def mergeValInto (merged : List (Key × Val)) (k : Key) :
    Option Val → Val → List (Key × Val)
  | some (Val.vdict e1), Val.vdict e2 =>
    setInPlace merged k (Val.vdict (recursive_merge e1 e2))
  | some (Val.vlist l1), Val.vlist l2 =>
    setInPlace merged k (Val.vlist (l1 ++ l2))
  | some _, v2 => setInPlace merged k v2
  | none, v2 => merged ++ [(k, v2)]
termination_by structural _ v2 => v2

end

/-- One iteration of the `for key, value_d2 in d2.items()` loop of
`recursive_merge`: look the key up in the evolving result, then dispatch on
the merge rules. -/
def mergeStep (merged : List (Key × Val)) (k : Key) (v2 : Val) :
    List (Key × Val) :=
  mergeValInto merged k (lookupVal merged k) v2

/-- The per-record bucket `{'message': ..., 'nodes': [...]}` built by
`get_group_status`. -/
def bucket (msg : String) (ids : List String) : Val :=
  .vdict [(.ks "message", .vstr msg), (.ks "nodes", .vlist (ids.map .vstr))]

/-- Key form of a diagnosis code (Python uses the status value itself as the
dictionary key). -/
def codeKey : Code → Key
  | .int i => .ki i
  | .sym s => .ks s

/-- The nested `{path: {status: bucket}}` dictionary merged per record by
`get_group_status`. -/
def diagDict (path : String) (status : Code) (msg : String) (ids : List String) :
    List (Key × Val) :=
  [(.ks path, .vdict [(codeKey status, bucket msg ids)])]

/-- `get_group_status` (group.py lines 153-175): run the analyser's
`get_state` on every node of the group in order and fold the per-record
dictionaries into the running result with `recursive_merge`.  The loop has no
exception handling, so a raised diagnosis error propagates and aborts the
whole batch (modelled by the `Except` short-circuit). -/
def get_group_status
    (getState : PTree → Except String (String × Code × String)) :
    List PTree → List (Key × Val) → Except String (List (Key × Val))
  | [], results => .ok results
  | node :: rest, results =>
    match getState node with
    | .error e => .error e
    | .ok (path, status, message) =>
      get_group_status getState rest
        (recursive_merge results (diagDict path status message [node.record.uuid]))

/-- Python objects on the heap: mutable dicts and lists hold addresses of
their values; strings and integers are immutable. -/
inductive HObj where
  | hdict (entries : List (Key × Nat))
  | hlist (elems : List Nat)
  | hstr (s : String)
  | hint (i : Int)
deriving DecidableEq, Repr

/-- A heap is a list of objects; an address is an index, and allocation
appends at the end. -/
abbrev Heap := List HObj

/-- Mutable objects are dicts and lists (`deepcopy` copies them; sharing them
is what the frame claim is about). -/
def HObj.isMut : HObj → Bool
  | .hdict _ => true
  | .hlist _ => true
  | .hstr _ => false
  | .hint _ => false

/-- Addresses an object refers to. -/
def HObj.refs : HObj → List Nat
  | .hdict es => es.map Prod.snd
  | .hlist l => l
  | .hstr _ => []
  | .hint _ => []

/-- Addresses the object at `a` refers to (empty for a dangling address). -/
def refsOf (h : Heap) (a : Nat) : List Nat :=
  match h.get? a with
  | some o => o.refs
  | none => []

/-- Does `a` hold a mutable object? -/
def mutAddr (h : Heap) (a : Nat) : Bool :=
  match h.get? a with
  | some o => o.isMut
  | none => false

/-- Every reference stored in the heap points inside the heap. -/
def ClosedHeap (h : Heap) : Prop := ∀ o ∈ h, ∀ b ∈ o.refs, b < h.length

instance (h : Heap) : Decidable (ClosedHeap h) := by
  unfold ClosedHeap
  infer_instance

/-- Reachability along stored references (reflexive-transitive). -/
inductive Reaches (h : Heap) : Nat → Nat → Prop where
  | refl (a : Nat) : Reaches h a a
  | step {a b c : Nat} : Reaches h a b → c ∈ refsOf h b → Reaches h a c

/-- Lookup `merged[key]` on a heap-level entry list. -/
def lookupAddr : List (Key × Nat) → Key → Option Nat
  | [], _ => none
  | (k', a) :: rest, k => if k' = k then some a else lookupAddr rest k

/-- In-place update `merged[key] = a` on a heap-level entry list. -/
def setEntryAddr : List (Key × Nat) → Key → Nat → List (Key × Nat)
  | [], _, _ => []
  | (k', a') :: rest, k, a =>
    if k' = k then (k', a) :: rest else (k', a') :: setEntryAddr rest k a

mutual

/-- Heap-level `copy.deepcopy`: immutable objects are returned as-is (as
`deepcopy` does for `str`/`int`), mutable objects are rebuilt from fresh
copies of their parts, the copy allocated after them.  The fuel argument only
forces termination on (physically impossible here but unprovable-in-general)
cyclic heaps; `none` means fuel ran out or an address dangled.  Python's
`deepcopy` memo — preservation of internal sharing inside the copied value —
is not modelled: copies are trees.  No property below depends on it. -/
def deepcopyH : Nat → Heap → Nat → Option (Heap × Nat)
  | 0, _, _ => none
  | fuel + 1, h, a =>
    match h.get? a with
    | none => none
    | some (HObj.hstr _) => some (h, a)
    | some (HObj.hint _) => some (h, a)
    | some (HObj.hdict es) =>
      match copyEntries fuel h es with
      | none => none
      | some (h1, es1) => some (h1 ++ [HObj.hdict es1], h1.length)
    | some (HObj.hlist l) =>
      match copyElems fuel h l with
      | none => none
      | some (h1, l1) => some (h1 ++ [HObj.hlist l1], h1.length)
termination_by structural fuel _ _ => fuel

/-- Copy of a dict's entry values, left to right. -/
def copyEntries : Nat → Heap → List (Key × Nat) → Option (Heap × List (Key × Nat))
  | 0, _, _ => none
  | _ + 1, h, [] => some (h, [])
  | fuel + 1, h, (k, a) :: rest =>
    match deepcopyH fuel h a with
    | none => none
    | some (h1, a1) =>
      match copyEntries fuel h1 rest with
      | none => none
      | some (h2, rest1) => some (h2, (k, a1) :: rest1)
termination_by structural fuel _ _ => fuel

/-- Copy of a list's element values, left to right. -/
def copyElems : Nat → Heap → List Nat → Option (Heap × List Nat)
  | 0, _, _ => none
  | _ + 1, h, [] => some (h, [])
  | fuel + 1, h, a :: rest =>
    match deepcopyH fuel h a with
    | none => none
    | some (h1, a1) =>
      match copyElems fuel h1 rest with
      | none => none
      | some (h2, rest1) => some (h2, a1 :: rest1)
termination_by structural fuel _ _ => fuel

/-- Heap-level `recursive_merge` (group.py lines 6-48): deep-copy `d1`, fold
the entries of `d2` in, allocate the merged dict.  Python mutates the freshly
created merged dict in place while looping; since no pre-existing object can
refer to that dict, collecting the entry updates and allocating the dict once
at the end produces the same reachable structure, and only reachable
structure is claimed below. -/
def rmergeH : Nat → Heap → Nat → Nat → Option (Heap × Nat)
  | 0, _, _, _ => none
  | fuel + 1, h, a1, a2 =>
    match h.get? a1, h.get? a2 with
    | some (HObj.hdict e1), some (HObj.hdict e2) =>
      match copyEntries fuel h e1 with
      | none => none
      | some (h1, ce1) =>
        match updEntries fuel h1 ce1 e2 with
        | none => none
        | some (h2, ents) => some (h2 ++ [HObj.hdict ents], h2.length)
    | _, _ => none
termination_by structural fuel _ _ _ => fuel

/-- The `for key, value_d2 in d2.items()` loop of `recursive_merge` at heap
level: `ents` is the evolving entry list of the merged dict (initially the
copy of `d1`'s).  Dict-dict conflicts merge recursively; list-list conflicts
allocate the concatenation, whose tail elements alias `d2`'s elements
(`value_merged + value_d2` copies neither side's elements); any other
conflict, and any new key, stores a deep copy of the `d2` value. -/
def updEntries : Nat → Heap → List (Key × Nat) → List (Key × Nat) →
    Option (Heap × List (Key × Nat))
  | 0, _, _, _ => none
  | _ + 1, h, ents, [] => some (h, ents)
  | fuel + 1, h, ents, (k, va2) :: rest =>
    match lookupAddr ents k with
    | some vm =>
      match h.get? vm, h.get? va2 with
      | some (HObj.hdict _), some (HObj.hdict _) =>
        match rmergeH fuel h vm va2 with
        | none => none
        | some (h1, rnew) => updEntries fuel h1 (setEntryAddr ents k rnew) rest
      | some (HObj.hlist l1), some (HObj.hlist l2) =>
        updEntries fuel (h ++ [HObj.hlist (l1 ++ l2)])
          (setEntryAddr ents k h.length) rest
      | _, _ =>
        match deepcopyH fuel h va2 with
        | none => none
        | some (h1, c) => updEntries fuel h1 (setEntryAddr ents k c) rest
    | none =>
      match deepcopyH fuel h va2 with
      | none => none
      | some (h1, c) => updEntries fuel h1 (ents ++ [(k, c)]) rest
termination_by structural fuel _ _ _ => fuel

end

theorem bfsList_nil : bfsList [] = [] := by
  simp only [bfsList]

theorem bfsList_cons (t : PTree) (rest : List PTree) :
    bfsList (t :: rest) = t :: bfsList (rest ++ t.children) := by
  simp only [bfsList]

theorem bfs_last_nil (last : PTree) : bfs_last [] last = last := by
  simp only [bfs_last]

theorem bfs_last_cons (t : PTree) (rest : List PTree) (last : PTree) :
    bfs_last (t :: rest) last = bfs_last (rest ++ t.children) t := by
  simp only [bfs_last]

theorem levelsFrom_nil : levelsFrom [] = [] := by
  simp only [levelsFrom]

theorem levelsFrom_cons (t : PTree) (rest : List PTree) :
    levelsFrom (t :: rest) =
      (t :: rest) ++ levelsFrom (childrenAll (t :: rest)) := by
  simp only [levelsFrom]

theorem bfsList_append (q1 q2 : List PTree) :
    bfsList (q1 ++ q2) = q1 ++ bfsList (q2 ++ childrenAll q1) := by
  induction q1 generalizing q2 with
  | nil => simp
  | cons t r ih =>
    rw [List.cons_append, bfsList_cons, List.append_assoc, ih (q2 ++ t.children)]
    simp [List.append_assoc]

theorem bfsList_round (q : List PTree) :
    bfsList q = q ++ bfsList (childrenAll q) := by
  have h := bfsList_append q []
  simpa using h

theorem sizeListPT_eq_zero {q : List PTree} (h : sizeListPT q = 0) : q = [] := by
  cases q with
  | nil => rfl
  | cons t r =>
    have := PTree.size_pos t
    simp at h
    omega

theorem bfsList_eq_levelsFrom_bounded :
    ∀ (n : Nat) (q : List PTree), sizeListPT q ≤ n → bfsList q = levelsFrom q := by
  intro n
  induction n with
  | zero =>
    intro q hq
    have : q = [] := sizeListPT_eq_zero (Nat.le_zero.mp hq)
    subst this
    rw [bfsList_nil, levelsFrom_nil]
  | succ n ih =>
    intro q hq
    cases q with
    | nil => rw [bfsList_nil, levelsFrom_nil]
    | cons t r =>
      rw [levelsFrom_cons, bfsList_round]
      congr 1
      apply ih
      have := levels_measure t r
      omega

theorem bfsList_eq_levelsFrom (q : List PTree) : bfsList q = levelsFrom q :=
  bfsList_eq_levelsFrom_bounded (sizeListPT q) q (Nat.le_refl _)

theorem getLast?_cons_getD {α : Type} (a d : α) (l : List α) :
    (a :: l).getLast?.getD d = l.getLast?.getD a := by
  cases l with
  | nil => simp
  | cons b bs =>
    rw [List.getLast?_cons_cons,
      List.getLast?_eq_getLast_of_ne_nil (List.cons_ne_nil b bs)]
    simp

theorem bfs_last_eq_bfsList_bounded :
    ∀ (n : Nat) (q : List PTree) (last : PTree), sizeListPT q ≤ n →
      bfs_last q last = (bfsList q).getLast?.getD last := by
  intro n
  induction n with
  | zero =>
    intro q last hq
    have : q = [] := sizeListPT_eq_zero (Nat.le_zero.mp hq)
    subst this
    rw [bfs_last_nil, bfsList_nil]
    rfl
  | succ n ih =>
    intro q last hq
    cases q with
    | nil => rw [bfs_last_nil, bfsList_nil]; rfl
    | cons t r =>
      rw [bfs_last_cons, bfsList_cons, getLast?_cons_getD]
      apply ih
      have := bfs_queue_measure t r
      omega

theorem bfs_last_eq_bfsList (q : List PTree) (last : PTree) :
    bfs_last q last = (bfsList q).getLast?.getD last :=
  bfs_last_eq_bfsList_bounded (sizeListPT q) q last (Nat.le_refl _)

theorem lastDescent_leaf {t : PTree} (h : t.children.getLast? = none) :
    lastDescent t = t := by
  rw [lastDescent]
  split
  · rfl
  · rename_i c hc
    rw [h] at hc
    cases hc

theorem lastDescent_step {t c : PTree} (h : t.children.getLast? = some c) :
    lastDescent t = lastDescent c := by
  rw [lastDescent]
  split
  · rename_i hc
    rw [h] at hc
    cases hc
  · rename_i c' hc
    rw [h] at hc
    cases hc
    rfl

/-- A plain composite (workchain-like) record used in concrete examples. -/
def exWork (st : Int) (uuid : String) : ExecRecord :=
  ⟨false, false, st, "", "WorkChain", none, none, .ok (true, 0, 0), 7, uuid⟩

/-- A tree on which BFS order and the last-child descent end differently:
children `a` (with one child `a1`) and `b` (childless). -/
def c9Tree : PTree :=
  .mk "ROOT" (exWork 300 "c9-root")
    [.mk "a" (exWork 300 "c9-a") [.mk "a1" (exWork 300 "c9-a1") []],
     .mk "b" (exWork 300 "c9-b") []]

/-- C9: the claim that `find_last_node` (BFS, last visited) coincides with the
descent that repeatedly takes the last-inserted child is false: on `c9Tree`
BFS visits `a1` last (it is on the deepest level), while the last-child
descent stops at the childless first-level child `b`. -/
theorem find_last_node_ne_lastDescent :
    find_last_node c9Tree ≠ lastDescent c9Tree ∧
      (find_last_node c9Tree).name = "a1" ∧ (lastDescent c9Tree).name = "b" := by
  have hfind : find_last_node c9Tree = .mk "a1" (exWork 300 "c9-a1") [] := by
    show bfs_last [c9Tree] c9Tree = _
    simp only [c9Tree, bfs_last_cons, bfs_last_nil, PTree.children_mk,
      List.cons_append, List.nil_append, List.append_nil]
  have hdesc : lastDescent c9Tree = .mk "b" (exWork 300 "c9-b") [] := by
    rw [lastDescent_step (c := .mk "b" (exWork 300 "c9-b") []) (by rfl),
      lastDescent_leaf (by rfl)]
  refine ⟨?_, ?_, ?_⟩
  · rw [hfind, hdesc]
    intro h
    have := congrArg PTree.name h
    simp at this
  · rw [hfind]; rfl
  · rw [hdesc]; rfl

/-- C9 (amended): `find_last_node` returns the node visited last in BFS order,
which is the final element of the level-order listing `levelsFrom [t]`; this
equals the last-inserted-child descent only on trees where that descent
reaches the deepest level, not in general. -/
theorem find_last_node_eq_levelorder_last (t : PTree) :
    (levelsFrom [t]).getLast? = some (find_last_node t) := by
  have h1 : find_last_node t = (bfsList [t]).getLast?.getD t := by
    show bfs_last [t] t = _
    exact bfs_last_eq_bfsList [t] t
  have h2 : bfsList [t] = t :: bfsList t.children := by
    rw [bfsList_cons]
    simp
  rw [← bfsList_eq_levelsFrom, h1, h2]
  rw [List.getLast?_eq_getLast_of_ne_nil (List.cons_ne_nil t (bfsList t.children))]
  simp

mutual

/-- All failing atomic leaves of a (sub)tree, in pre-order: for each, the
sequence of child labels leading from the given node down to it (excluding
the given node's own name), and the node itself. -/
def failingLeaves (t : PTree) : List (List String × PTree) :=
  match t with
  | .mk name record cs =>
    (if record.isCalcJob && !record.finishedOk
      then [([], PTree.mk name record cs)] else [])
      ++ failingLeavesList cs
termination_by structural t

/-- Failing atomic leaves of a list of subtrees, each path prefixed with the
owning child's name. -/
def failingLeavesList (cs : List PTree) : List (List String × PTree) :=
  match cs with
  | [] => []
  | c :: rest =>
    (failingLeaves c).map (fun pr => (c.name :: pr.1, pr.2))
      ++ failingLeavesList rest
termination_by structural cs

end

mutual

theorem traverse_eq_failingLeaves (t : PTree) (cp : String) :
    traverse_and_check t cp =
      (failingLeaves t).head?.map
        (fun pr => (pr.1.foldl pathJoin (pathJoin cp t.name), pr.2)) := by
  match t with
  | .mk name record cs =>
    rw [traverse_and_check, failingLeaves]
    by_cases hf : record.isCalcJob && !record.finishedOk
    · simp [hf]
    · simp only [hf, if_neg, Bool.false_eq_true, ite_false, List.nil_append]
      exact traverseChildren_eq_failingLeavesList cs (pathJoin cp name)
termination_by structural t

theorem traverseChildren_eq_failingLeavesList (cs : List PTree) (p : String) :
    traverseChildren cs p =
      (failingLeavesList cs).head?.map
        (fun pr => (pr.1.foldl pathJoin p, pr.2)) := by
  match cs with
  | [] => rw [traverseChildren, failingLeavesList]; rfl
  | c :: rest =>
    rw [traverseChildren, failingLeavesList]
    rw [traverse_eq_failingLeaves c p]
    cases hc : failingLeaves c with
    | nil =>
      simp only [hc, List.map_nil, List.head?_nil, Option.map_none, List.nil_append]
      exact traverseChildren_eq_failingLeavesList rest p
    | cons pr prs =>
      simp [hc, List.foldl_cons]
termination_by structural cs

end

/-- C1 (amended): for a root record that is not finished successfully whose
tree contains exactly one failing atomic leaf, at child-label sequence `P`
with native exit code `C` and message `M`, the generic `get_state` returns
that leaf's code and message, but the returned path is the `/`-join of the
root sentinel name `"ROOT"` with `P` (the fault locator starts its path at
the tree root's name), not `P` alone as the claim states. -/
theorem base_get_state_single_failing_leaf (n m : PTree) (P : List String)
    (C : Int) (M : String)
    (hroot : n.record.finishedOk = false)
    (huniq : failingLeaves n.reroot = [(P, m)])
    (hC : m.record.exitStatus = C) (hM : m.record.exitMessage = M) :
    BaseWorkChainAnalyser.get_state n = (P.foldl pathJoin "ROOT", Code.int C, M) := by
  rw [BaseWorkChainAnalyser.get_state]
  rw [hroot]
  simp only [Bool.false_eq_true, if_false]
  rw [traverse_eq_failingLeaves n.reroot "", huniq]
  have hpj : pathJoin "" (n.reroot).name = "ROOT" := by
    rw [PTree.name_reroot]
    rfl
  simp [hpj, hC, hM]
  rw [show pathJoin "" "ROOT" = "ROOT" from rfl]

/-- The spec's worked example: composite unsuccessful root with a successful
leaf child `scf` and a failing leaf child `nscf` (status 500, message
"SCF did not converge"). -/
def c1Scf : PTree :=
  .mk "scf"
    ⟨true, true, 0, "", "PwCalculation", none, none, .ok (true, 0, 0), 21, "c1-scf"⟩ []

def c1Nscf : PTree :=
  .mk "nscf"
    ⟨true, false, 500, "SCF did not converge", "PwCalculation", none, none,
     .ok (true, 0, 0), 22, "c1-nscf"⟩ []

def c1Tree : PTree := .mk "ROOT" (exWork 300 "c1-root") [c1Scf, c1Nscf]

/-- C1: the claim's own example is a counterexample to the claim as stated:
`get_state` returns path `"ROOT/nscf"` (the locator's path starts at the
root's name), not the claimed `"nscf"`. -/
theorem base_get_state_example_path_counterexample :
    BaseWorkChainAnalyser.get_state c1Tree =
      ("ROOT/nscf", Code.int 500, "SCF did not converge") ∧
      ("ROOT/nscf" : String) ≠ "nscf" := by
  constructor
  · rfl
  · decide

/-- C1 witness: the amended statement evaluated on the spec's example tree. -/
theorem base_get_state_single_failing_leaf_witness :
    BaseWorkChainAnalyser.get_state c1Tree =
      (["nscf"].foldl pathJoin "ROOT", Code.int 500, "SCF did not converge") :=
  base_get_state_single_failing_leaf c1Tree c1Nscf ["nscf"] 500
    "SCF did not converge" rfl rfl rfl rfl

theorem getStateFromTree_reroot (n : PTree) :
    getStateFromTree n.reroot = getStateFromTree n := by
  rw [getStateFromTree, getStateFromTree]
  simp

namespace Wannier90WorkChainAnalyser

/-- Skip condition for one declared subprocess: present implies finished ok,
absent implies optional. -/
def skips (t : PTree) (p : String × Bool) : Prop :=
  ((t.lookupChild p.1).all (fun c => c.record.finishedOk) = true) ∧
    ((t.lookupChild p.1).isNone = true → p.2 = false)

instance (t : PTree) (p : String × Bool) : Decidable (skips t p) := by
  unfold skips
  infer_instance

theorem walk_skip (t : PTree) (L1 L2 : List (String × Bool))
    (hskip : ∀ p ∈ L1, skips t p) :
    walk t (L1 ++ L2) = walk t L2 := by
  induction L1 with
  | nil => rfl
  | cons p r ih =>
    obtain ⟨s, req⟩ := p
    have hp := hskip (s, req) (List.mem_cons_self _ _)
    rw [List.cons_append, walk]
    cases hc : t.lookupChild s with
    | some c =>
      have : c.record.finishedOk = true := by
        have := hp.1
        rw [hc] at this
        simpa [Option.all] using this
      simp only [this, if_true]
      exact ih (fun q hq => hskip q (List.mem_cons_of_mem _ hq))
    | none =>
      have : req = false := by
        apply hp.2
        rw [hc]
        rfl
      simp only [this, Bool.false_eq_true, if_false]
      exact ih (fun q hq => hskip q (List.mem_cons_of_mem _ hq))

end Wannier90WorkChainAnalyser

/-- C3 (amended): for the wannier90 analyser (unsuccessful root), if every
declared subprocess before `(s, req)` in the checklist is skipped (present
implies successful, absent implies optional) and `s` is present with an
unsuccessful record, `get_state` returns that subprocess's analyser's result
with the label `s` prefixed to the path (the label replacing the path when
the sub-result's path is the `"ROOT"` sentinel).  This prefixing holds for
`wannier90.py` only: `epw_prep.py` returns the sub-result unchanged (see the
counterexample). -/
theorem wannier90_checklist_first_failure (n : PTree) (L1 L2 : List (String × Bool))
    (s : String) (req : Bool) (c : PTree)
    (hsplit : Wannier90WorkChainAnalyser.subprocesses = L1 ++ (s, req) :: L2)
    (hroot : n.record.finishedOk = false)
    (hskip : ∀ p ∈ L1, Wannier90WorkChainAnalyser.skips n.reroot p)
    (hc : n.reroot.lookupChild s = some c)
    (hfail : c.record.finishedOk = false) :
    Wannier90WorkChainAnalyser.get_state n =
      ((if (Wannier90WorkChainAnalyser.dispatch s c).1 = "ROOT" then s
        else s ++ "/" ++ (Wannier90WorkChainAnalyser.dispatch s c).1),
       (Wannier90WorkChainAnalyser.dispatch s c).2.1,
       (Wannier90WorkChainAnalyser.dispatch s c).2.2) := by
  rw [Wannier90WorkChainAnalyser.get_state, hroot]
  simp only [Bool.false_eq_true, if_false]
  rw [hsplit, Wannier90WorkChainAnalyser.walk_skip n.reroot L1 _ hskip,
    Wannier90WorkChainAnalyser.walk, hc]
  simp only [hfail, Bool.false_eq_true, if_false]

/-- C4 (amended): for the wannier90 analyser, when the ordered walk reaches a
required subprocess that is absent (all earlier declared subprocesses being
skipped), `get_state` returns the result of the generic fault locator
`_get_state_from_tree` over the full tree.  Without the walk-order proviso
the claim is false (see the counterexample). -/
theorem wannier90_required_absent_fallback (n : PTree) (L1 L2 : List (String × Bool))
    (s : String)
    (hsplit : Wannier90WorkChainAnalyser.subprocesses = L1 ++ (s, true) :: L2)
    (hroot : n.record.finishedOk = false)
    (hskip : ∀ p ∈ L1, Wannier90WorkChainAnalyser.skips n.reroot p)
    (habs : n.reroot.lookupChild s = none) :
    Wannier90WorkChainAnalyser.get_state n = getStateFromTree n := by
  rw [Wannier90WorkChainAnalyser.get_state, hroot]
  simp only [Bool.false_eq_true, if_false]
  rw [hsplit, Wannier90WorkChainAnalyser.walk_skip n.reroot L1 _ hskip,
    Wannier90WorkChainAnalyser.walk, habs]
  simp only [if_true]
  exact getStateFromTree_reroot n

/-- A failing pw leaf inside an scf subprocess, used by the C3/C4 examples. -/
def exPwLeaf : PTree :=
  .mk "pw"
    ⟨true, false, 500, "pw crashed", "PwCalculation", none, none,
     .ok (true, 0, 0), 31, "ex-pw"⟩ []

def exScfFailing : PTree :=
  .mk "scf"
    ⟨false, false, 300, "", "PwBaseWorkChain", none, none, .ok (true, 0, 0),
     32, "ex-scf"⟩ [exPwLeaf]

/-- Wannier90 tree whose `scf` subprocess failed and whose required `nscf`
subprocess is entirely absent. -/
def c4Tree : PTree := .mk "ROOT" (exWork 300 "c4-root") [exScfFailing]

/-- C4: counterexample to the claim as stated.  On `c4Tree` the required
subprocess `nscf` is entirely absent from the tree, yet `get_state` does not
return the generic fault locator's result: the walk reaches the failing `scf`
first and returns its sub-analysis `("scf/ROOT/pw", ...)`, while the generic
locator over the full tree returns `("ROOT/scf/pw", ...)`. -/
theorem wannier90_required_absent_counterexample :
    Wannier90WorkChainAnalyser.get_state c4Tree =
      ("scf/ROOT/pw", Code.int 500, "pw crashed") ∧
    getStateFromTree c4Tree = ("ROOT/scf/pw", Code.int 500, "pw crashed") ∧
    (c4Tree.reroot.lookupChild "nscf").isNone = true ∧
    ("nscf", true) ∈ Wannier90WorkChainAnalyser.subprocesses ∧
    ("scf/ROOT/pw" : String) ≠ "ROOT/scf/pw" := by
  refine ⟨rfl, rfl, rfl, ?_, by decide⟩
  simp [Wannier90WorkChainAnalyser.subprocesses]

/-- Wannier90 tree with successful `scf` and failing `nscf`, the `nscf`
subprocess containing the failing `pw` leaf. -/
def c3Scf : PTree :=
  .mk "scf"
    ⟨false, true, 0, "", "PwBaseWorkChain", none, none, .ok (true, 0, 0),
     33, "c3-scf"⟩ []

def c3Nscf : PTree :=
  .mk "nscf"
    ⟨false, false, 300, "", "PwBaseWorkChain", none, none, .ok (true, 0, 0),
     34, "c3-nscf"⟩ [exPwLeaf]

def c3W90Tree : PTree := .mk "ROOT" (exWork 300 "c3-root") [c3Scf, c3Nscf]

/-- C3 witness: the amended statement evaluated on a wannier90 tree whose
`scf` succeeded and whose `nscf` failed: the result is `nscf`'s sub-analysis
with `nscf/` prefixed. -/
theorem wannier90_checklist_first_failure_witness :
    Wannier90WorkChainAnalyser.get_state c3W90Tree =
      ((if (Wannier90WorkChainAnalyser.dispatch "nscf" c3Nscf).1 = "ROOT"
        then "nscf"
        else "nscf" ++ "/" ++ (Wannier90WorkChainAnalyser.dispatch "nscf" c3Nscf).1),
       (Wannier90WorkChainAnalyser.dispatch "nscf" c3Nscf).2.1,
       (Wannier90WorkChainAnalyser.dispatch "nscf" c3Nscf).2.2) :=
  wannier90_checklist_first_failure c3W90Tree [("scf", true)]
    [("projwfc", false), ("wannier90_pp", true), ("pw2wannier90", true),
     ("wannier90", true)]
    "nscf" true c3Nscf rfl rfl (by decide) rfl rfl

/-- C4 witness: the amended statement on a tree with no subprocesses at all:
the first declared subprocess `scf` is required and absent, so `get_state`
equals the generic locator's result. -/
theorem wannier90_required_absent_fallback_witness :
    Wannier90WorkChainAnalyser.get_state (.mk "ROOT" (exWork 300 "c4w") []) =
      getStateFromTree (.mk "ROOT" (exWork 300 "c4w") []) :=
  wannier90_required_absent_fallback (.mk "ROOT" (exWork 300 "c4w") []) []
    [("nscf", true), ("projwfc", false), ("wannier90_pp", true),
     ("pw2wannier90", true), ("wannier90", true)]
    "scf" rfl rfl (by decide) rfl

/-- An epw_base subprocess wrapping a failing epw leaf, used by the C3
counterexample. -/
def c3EpwLeaf : PTree :=
  .mk "epw"
    ⟨true, false, 401, "epw failed", "EpwCalculation", none, none,
     .ok (true, 0, 0), 35, "c3-epw"⟩ []

def c3EpwBase : PTree :=
  .mk "epw_base"
    ⟨false, false, 300, "", "EpwBaseWorkChain", none, none, .ok (true, 0, 0),
     36, "c3-epwbase"⟩ [c3EpwLeaf]

def c3EpwPrepTree : PTree := .mk "ROOT" (exWork 300 "c3-eproot") [c3EpwBase]

/-- C3: counterexample to the claim as stated.  The epw_prep analyser also has
a declared ordered subprocess checklist, but it returns the failing
subprocess's sub-result unchanged: on `c3EpwPrepTree` the first failing
declared subprocess is `epw_base` and `get_state` returns path `"ROOT/epw"`,
neither prefixed (`"epw_base/ROOT/epw"`) nor label-substituted
(`"epw_base"`). -/
theorem epw_prep_no_prefix_counterexample :
    EpwPrepWorkChainAnalyser.get_state c3EpwPrepTree =
      .ok ("ROOT/epw", Code.int 401, "epw failed") ∧
    ("ROOT/epw" : String) ≠ "epw_base/ROOT/epw" ∧
    ("ROOT/epw" : String) ≠ "epw_base" := by
  exact ⟨rfl, by decide, by decide⟩

namespace PhBaseWorkChainAnalyser

theorem stabilityStep_ne_zero (n : PTree) (p : String) (es : Code) (msg : String)
    (h : es ≠ Code.int 0) : stabilityStep n p es msg = (p, es, msg) := by
  rw [stabilityStep, if_neg h]

end PhBaseWorkChainAnalyser

/-- C5: when the generic diagnosis yields the unrefined status 312 for a
ph_base record, `get_state` refines it from the last-executed node: if that
node is not a `PhCalculation` the unrefined status is returned with an
explanatory note; otherwise the captured stdout is scanned against the
ordered `(label, substring)` rules with the first match's label becoming the
code; failing that the captured stderr is scanned for the scheduler
signatures (time limit first, then forced kill); failing that the code
degrades to -1 with a note.  The last conjunct is the determinism of
first-match scanning: a text containing the first rule's substring is labeled
by the first rule. -/
theorem ph_base_classification_312 (n : PTree) (p m : String)
    (h : getStateFromTree n = (p, Code.int 312, m)) :
    (((find_last_node n.reroot).record.processLabel ≠ "PhCalculation" →
      PhBaseWorkChainAnalyser.get_state n = (p, Code.int 312,
        m ++ " (Last node is " ++ (find_last_node n.reroot).record.processLabel ++
          ", not PhCalculation)")) ∧
    ((find_last_node n.reroot).record.processLabel = "PhCalculation" →
      ∀ flag,
        PhBaseWorkChainAnalyser.firstMatch PhBaseWorkChainAnalyser.error_rules
          ((find_last_node n.reroot).record.aiidaOut.getD "") = some flag →
        PhBaseWorkChainAnalyser.get_state n =
          (p, Code.sym flag, m ++ " (Detected: " ++ flag ++ ")")) ∧
    ((find_last_node n.reroot).record.processLabel = "PhCalculation" →
      PhBaseWorkChainAnalyser.firstMatch PhBaseWorkChainAnalyser.error_rules
        ((find_last_node n.reroot).record.aiidaOut.getD "") = none →
      strContains ((find_last_node n.reroot).record.schedulerStderr.getD "")
        "TIME LIMIT" = true →
      PhBaseWorkChainAnalyser.get_state n =
        (p, Code.sym "SCHEDULER_TIME_LIMIT",
          m ++ " (Scheduler time limit reached)")) ∧
    ((find_last_node n.reroot).record.processLabel = "PhCalculation" →
      PhBaseWorkChainAnalyser.firstMatch PhBaseWorkChainAnalyser.error_rules
        ((find_last_node n.reroot).record.aiidaOut.getD "") = none →
      strContains ((find_last_node n.reroot).record.schedulerStderr.getD "")
        "TIME LIMIT" = false →
      strContains ((find_last_node n.reroot).record.schedulerStderr.getD "")
        "process killed" = true →
      PhBaseWorkChainAnalyser.get_state n =
        (p, Code.sym "KILLED_BY_SCHEDULER",
          m ++ " (Process killed by scheduler)")) ∧
    ((find_last_node n.reroot).record.processLabel = "PhCalculation" →
      PhBaseWorkChainAnalyser.firstMatch PhBaseWorkChainAnalyser.error_rules
        ((find_last_node n.reroot).record.aiidaOut.getD "") = none →
      strContains ((find_last_node n.reroot).record.schedulerStderr.getD "")
        "TIME LIMIT" = false →
      strContains ((find_last_node n.reroot).record.schedulerStderr.getD "")
        "process killed" = false →
      PhBaseWorkChainAnalyser.get_state n =
        (p, Code.int (-1), m ++ " (Unable to determine specific error)")) ∧
    (∀ (sig1 lab1 sig2 lab2 : String) (text : String),
      strContains text sig1 = true →
      PhBaseWorkChainAnalyser.firstMatch [(lab1, sig1), (lab2, sig2)] text =
        some lab1)) := by
  have hstep : ∀ es msg', es ≠ Code.int 0 →
      PhBaseWorkChainAnalyser.stabilityStep n p es msg' = (p, es, msg') :=
    fun es msg' hne => PhBaseWorkChainAnalyser.stabilityStep_ne_zero n p es msg' hne
  refine ⟨?_, ?_, ?_, ?_, ?_, ?_⟩
  · intro hlabel
    rw [PhBaseWorkChainAnalyser.get_state]
    rw [h]
    simp only [if_pos rfl, if_pos hlabel, if_true]
  · intro hlabel flag hflag
    rw [PhBaseWorkChainAnalyser.get_state]
    rw [h]
    simp only [hlabel, ne_eq, not_true_eq_false, if_pos rfl, if_false, hflag,
      if_true]
    apply hstep
    simp
  · intro hlabel hnone htl
    rw [PhBaseWorkChainAnalyser.get_state]
    rw [h]
    simp only [hlabel, ne_eq, not_true_eq_false, if_pos rfl, if_false, hnone, htl,
      if_true]
    apply hstep
    simp
  · intro hlabel hnone htl hpk
    rw [PhBaseWorkChainAnalyser.get_state]
    rw [h]
    simp only [hlabel, ne_eq, not_true_eq_false, if_pos rfl, if_false, hnone, htl,
      hpk, Bool.false_eq_true, if_true]
    apply hstep
    simp
  · intro hlabel hnone htl hpk
    rw [PhBaseWorkChainAnalyser.get_state]
    rw [h]
    simp only [hlabel, ne_eq, not_true_eq_false, if_pos rfl, if_false, hnone, htl,
      hpk, Bool.false_eq_true, if_true]
    apply hstep
    decide
  · intro sig1 lab1 sig2 lab2 text hsig
    rw [PhBaseWorkChainAnalyser.firstMatch, if_pos hsig]

/-- A ph_base tree whose generic diagnosis is the unrefined 312 at the failing
`PhCalculation` leaf, with a recognisable signature in the captured stdout. -/
def c5Leaf : PTree :=
  .mk "iteration_01"
    ⟨true, false, 312, "phonon failed", "PhCalculation",
     some "stopping ... Error in routine cdiaghg (4) ... info", some "",
     .ok (true, 0, 0), 41, "c5-leaf"⟩ []

def c5Tree : PTree := .mk "ROOT" (exWork 312 "c5-root") [c5Leaf]

/-- C5 witness: on `c5Tree` the stdout scan detects `ERROR_CDIAGHG` (the
fourth rule) and it becomes the result code. -/
theorem ph_base_classification_312_witness :
    PhBaseWorkChainAnalyser.get_state c5Tree =
      ("ROOT/iteration_01", Code.sym "ERROR_CDIAGHG",
        "phonon failed" ++ " (Detected: " ++ "ERROR_CDIAGHG" ++ ")") := by
  have hlast : find_last_node c5Tree.reroot = c5Leaf := by
    show bfs_last [c5Tree.reroot] c5Tree.reroot = c5Leaf
    simp only [c5Tree, c5Leaf, PTree.reroot, bfs_last_cons, bfs_last_nil,
      PTree.children_mk, List.cons_append, List.nil_append, List.append_nil]
  have hmain :=
    ph_base_classification_312 c5Tree "ROOT/iteration_01" "phonon failed" rfl
  exact hmain.2.1 (by rw [hlast]; rfl) "ERROR_CDIAGHG" (by rw [hlast]; rfl)

namespace EpwPrepWorkChainAnalyser

theorem walk_none (t : PTree)
    (L : List (String × (PTree → String × Code × String)))
    (hall : ∀ pr ∈ L,
      (t.lookupChild pr.1).all (fun c => c.record.finishedOk) = true) :
    walk t L = none := by
  induction L with
  | nil => rfl
  | cons pr rest ih =>
    obtain ⟨s, analyse⟩ := pr
    have hp := hall (s, analyse) (List.mem_cons_self _ _)
    rw [walk]
    cases hc : t.lookupChild s with
    | some c =>
      have : c.record.finishedOk = true := by
        rw [hc] at hp
        simpa [Option.all] using hp
      simp only [this, if_true]
      exact ih (fun q hq => hall q (List.mem_cons_of_mem _ hq))
    | none =>
      exact ih (fun q hq => hall q (List.mem_cons_of_mem _ hq))

end EpwPrepWorkChainAnalyser

/-- C2 (amended): diagnosis error containment holds for ph_base — a failing
stability hook is caught and degrades to a note on the unchanged result — but
not for every analyser: `epw_prep.py`'s `get_state` raises `ValueError` when
the root is unsuccessful and no declared subprocess is present and failing
(`b2w.py` has the same final `raise`). -/
theorem get_state_error_containment :
    (∀ (n : PTree) (p m e : String),
      getStateFromTree n = (p, Code.int 0, m) →
      n.record.stability = .error e →
      PhBaseWorkChainAnalyser.get_state n =
        (p, Code.int 0, m ++ " (Stability check failed: " ++ e ++ ")")) ∧
    (∀ n : PTree, n.record.finishedOk = false →
      (∀ pr ∈ EpwPrepWorkChainAnalyser.subprocesses,
        (n.reroot.lookupChild pr.1).all (fun c => c.record.finishedOk) = true) →
      EpwPrepWorkChainAnalyser.get_state n =
        .error ("Unknown exit status: " ++ toString n.record.exitStatus)) := by
  constructor
  · intro n p m e h hstab
    rw [PhBaseWorkChainAnalyser.get_state]
    rw [h]
    have h312 : (Code.int 0 = Code.int 312) = False := by simp
    simp only [h312, if_false]
    rw [PhBaseWorkChainAnalyser.stabilityStep, if_pos rfl, hstab]
  · intro n hroot hall
    rw [EpwPrepWorkChainAnalyser.get_state, hroot]
    simp only [Bool.false_eq_true, if_false]
    rw [EpwPrepWorkChainAnalyser.walk_none n.reroot _ hall]

/-- Unsuccessful epw_prep root with none of the declared subprocesses present. -/
def c2Tree : PTree := .mk "ROOT" (exWork 305 "c2-root") []

/-- C2: counterexample to the claim as stated: `epw_prep.py`'s `get_state`
raises `ValueError('Unknown exit status: 305')` on a record with a perfectly
resolvable (childless) process tree, instead of returning a degraded
triple. -/
theorem epw_prep_get_state_raises_counterexample :
    EpwPrepWorkChainAnalyser.get_state c2Tree =
      .error "Unknown exit status: 305" := rfl

/-- Successful ph_base root whose stability hook raises. -/
def c2PhTree : PTree :=
  .mk "ROOT"
    ⟨false, true, 0, "", "PhBaseWorkChain", none, none,
     .error "no output_parameters", 42, "c2-ph"⟩ []

/-- C2 witness: both halves of the amended statement at concrete inputs. -/
theorem get_state_error_containment_witness :
    PhBaseWorkChainAnalyser.get_state c2PhTree =
      ("ROOT", Code.int 0,
        "finished OK" ++ " (Stability check failed: " ++
          "no output_parameters" ++ ")") ∧
    EpwPrepWorkChainAnalyser.get_state c2Tree =
      .error ("Unknown exit status: " ++ toString c2Tree.record.exitStatus) :=
  ⟨get_state_error_containment.1 c2PhTree "ROOT" "finished OK"
      "no output_parameters" rfl rfl,
   get_state_error_containment.2 c2Tree rfl (by decide)⟩

/-- C6: the exemption short-circuit of `clean_workchain`: when the diagnosis
code is a member of the exemption set, the result is the explanatory message
with `changed = false` and no collaborator call (neither `clean_workdir` nor
`delete_nodes`) is issued. -/
theorem clean_workchain_exemption_short_circuit (env : CleanEnv) (n : PTree)
    (E : List Code) (dry : Bool) (p : String) (st : Code) (msg : String)
    (hs : BaseWorkChainAnalyser.get_state n = (p, st, msg))
    (hex : st ∈ E) :
    BaseWorkChainAnalyser.clean_workchain env n E dry =
      (("Process<" ++ toString n.record.pk ++ "> is now " ++ st.toStr ++
          " at " ++ p ++
          ". Please check if you really want to clean this workchain.\n",
        false), []) := by
  rw [BaseWorkChainAnalyser.clean_workchain, hs]
  simp only [if_pos hex]

/-- C6 witness: the spec example tree with its diagnosis code 500 exempted:
refusal message, `changed = false`, no effects. -/
theorem clean_workchain_exemption_short_circuit_witness :
    BaseWorkChainAnalyser.clean_workchain ⟨[], []⟩ c1Tree [Code.int 500] true =
      (("Process<" ++ toString c1Tree.record.pk ++ "> is now " ++
          (Code.int 500).toStr ++ " at " ++ "ROOT/nscf" ++
          ". Please check if you really want to clean this workchain.\n",
        false), []) :=
  clean_workchain_exemption_short_circuit ⟨[], []⟩ c1Tree [Code.int 500] true
    "ROOT/nscf" (Code.int 500) "SCF did not converge" rfl (by decide)

theorem codeKey_inj {a b : Code} (h : codeKey a = codeKey b) : a = b := by
  cases a <;> cases b <;> simp [codeKey] at h <;> simp [h]

theorem rm_nil (merged : List (Key × Val)) : recursive_merge merged [] = merged := rfl

theorem rm_cons (merged : List (Key × Val)) (k : Key) (v2 : Val)
    (rest : List (Key × Val)) :
    recursive_merge merged ((k, v2) :: rest) =
      recursive_merge (mergeStep merged k v2) rest := rfl

theorem lookupVal_cons_self (k : Key) (v : Val) (r : List (Key × Val)) :
    lookupVal ((k, v) :: r) k = some v := by
  simp [lookupVal]

theorem lookupVal_cons_ne {k' k : Key} (h : ¬(k' = k)) (v : Val)
    (r : List (Key × Val)) : lookupVal ((k', v) :: r) k = lookupVal r k := by
  simp [lookupVal, h]

theorem setInPlace_cons_self (k : Key) (v' v : Val) (r : List (Key × Val)) :
    setInPlace ((k, v') :: r) k v = (k, v) :: r := by
  simp [setInPlace]

theorem setInPlace_cons_ne {k' k : Key} (h : ¬(k' = k)) (v' v : Val)
    (r : List (Key × Val)) :
    setInPlace ((k', v') :: r) k v = (k', v') :: setInPlace r k v := by
  simp [setInPlace, h]

theorem mergeStep_dict_dict {merged : List (Key × Val)} {k : Key}
    {e1 : List (Key × Val)} (h : lookupVal merged k = some (.vdict e1))
    (e2 : List (Key × Val)) :
    mergeStep merged k (.vdict e2) =
      setInPlace merged k (.vdict (recursive_merge e1 e2)) := by
  show mergeValInto merged k (lookupVal merged k) (.vdict e2) = _
  rw [h]
  rfl

theorem mergeStep_list_list {merged : List (Key × Val)} {k : Key}
    {l1 : List Val} (h : lookupVal merged k = some (.vlist l1)) (l2 : List Val) :
    mergeStep merged k (.vlist l2) = setInPlace merged k (.vlist (l1 ++ l2)) := by
  show mergeValInto merged k (lookupVal merged k) (.vlist l2) = _
  rw [h]
  rfl

theorem mergeStep_overwrite_str {merged : List (Key × Val)} {k : Key}
    {s : String} (h : lookupVal merged k = some (.vstr s)) (v2 : Val) :
    mergeStep merged k v2 = setInPlace merged k v2 := by
  show mergeValInto merged k (lookupVal merged k) v2 = _
  rw [h]
  cases v2 <;> rfl

theorem mergeStep_new {merged : List (Key × Val)} {k : Key}
    (h : lookupVal merged k = none) (v2 : Val) :
    mergeStep merged k v2 = merged ++ [(k, v2)] := by
  show mergeValInto merged k (lookupVal merged k) v2 = _
  rw [h]
  cases v2 <;> rfl

theorem rm_single_dict (k : Key) (e1 e2 : List (Key × Val)) :
    recursive_merge [(k, .vdict e1)] [(k, .vdict e2)] =
      [(k, .vdict (recursive_merge e1 e2))] := by
  rw [rm_cons, mergeStep_dict_dict (lookupVal_cons_self k (.vdict e1) []) e2,
    setInPlace_cons_self, rm_nil]

theorem rm_single_list (k : Key) (l1 l2 : List Val) :
    recursive_merge [(k, .vlist l1)] [(k, .vlist l2)] =
      [(k, .vlist (l1 ++ l2))] := by
  rw [rm_cons, mergeStep_list_list (lookupVal_cons_self k (.vlist l1) []) l2,
    setInPlace_cons_self, rm_nil]

theorem msgKey_ne_nodesKey : ¬(Key.ks "message" = Key.ks "nodes") := by decide

theorem rm_bucket (m1 m2 i1 i2 : String) :
    recursive_merge
      [(Key.ks "message", Val.vstr m1), (Key.ks "nodes", Val.vlist [Val.vstr i1])]
      [(Key.ks "message", Val.vstr m2), (Key.ks "nodes", Val.vlist [Val.vstr i2])] =
      [(Key.ks "message", Val.vstr m2),
       (Key.ks "nodes", Val.vlist [Val.vstr i1, Val.vstr i2])] := by
  rw [rm_cons,
    mergeStep_overwrite_str
      (lookupVal_cons_self (Key.ks "message") (Val.vstr m1) _) (Val.vstr m2),
    setInPlace_cons_self]
  rw [rm_cons]
  rw [mergeStep_list_list
    (by
      rw [lookupVal_cons_ne msgKey_ne_nodesKey,
        lookupVal_cons_self (Key.ks "nodes") (Val.vlist [Val.vstr i1]) []])
    [Val.vstr i2]]
  rw [setInPlace_cons_ne msgKey_ne_nodesKey, setInPlace_cons_self, rm_nil]
  rfl

theorem lookupVal_nil (k : Key) : lookupVal [] k = none := rfl

/-- C7: the aggregation deep-merge.  Mapping-valued keys merge recursively,
list-valued keys concatenate, other conflicting values are overwritten by the
incoming value; consequently two records with the same path and code merge
into one bucket carrying both member ids (message overwritten by the
incoming one), while a different code under the same path becomes a sibling
bucket, leaving the existing one intact. -/
theorem recursive_merge_aggregation (p : String) (c c' : Code)
    (m1 m2 i1 i2 : String) (hcc : c ≠ c') :
    (recursive_merge (diagDict p c m1 [i1]) (diagDict p c m2 [i2]) =
      diagDict p c m2 [i1, i2]) ∧
    (recursive_merge (diagDict p c m1 [i1]) (diagDict p c' m2 [i2]) =
      [(.ks p, .vdict [(codeKey c, bucket m1 [i1]),
                       (codeKey c', bucket m2 [i2])])]) ∧
    (∀ (k : Key) (e1 e2 : List (Key × Val)),
      recursive_merge [(k, .vdict e1)] [(k, .vdict e2)] =
        [(k, .vdict (recursive_merge e1 e2))]) ∧
    (∀ (k : Key) (l1 l2 : List Val),
      recursive_merge [(k, .vlist l1)] [(k, .vlist l2)] =
        [(k, .vlist (l1 ++ l2))]) ∧
    (∀ (k : Key) (s : String) (v2 : Val),
      recursive_merge [(k, .vstr s)] [(k, v2)] = [(k, v2)]) := by
  have hk : ¬(codeKey c = codeKey c') := fun h => hcc (codeKey_inj h)
  refine ⟨?_, ?_, rm_single_dict, rm_single_list, ?_⟩
  · show recursive_merge
        [(Key.ks p, Val.vdict [(codeKey c,
          Val.vdict [(Key.ks "message", Val.vstr m1),
                     (Key.ks "nodes", Val.vlist [Val.vstr i1])])])]
        [(Key.ks p, Val.vdict [(codeKey c,
          Val.vdict [(Key.ks "message", Val.vstr m2),
                     (Key.ks "nodes", Val.vlist [Val.vstr i2])])])] =
      [(Key.ks p, Val.vdict [(codeKey c,
        Val.vdict [(Key.ks "message", Val.vstr m2),
                   (Key.ks "nodes", Val.vlist [Val.vstr i1, Val.vstr i2])])])]
    rw [rm_single_dict, rm_single_dict, rm_bucket]
  · have hinner : recursive_merge [(codeKey c, bucket m1 [i1])]
        [(codeKey c', bucket m2 [i2])] =
        [(codeKey c, bucket m1 [i1]), (codeKey c', bucket m2 [i2])] := by
      rw [rm_cons,
        mergeStep_new (by rw [lookupVal_cons_ne hk]; rfl) (bucket m2 [i2]),
        rm_nil]
      rfl
    show recursive_merge
        [(Key.ks p, Val.vdict [(codeKey c, bucket m1 [i1])])]
        [(Key.ks p, Val.vdict [(codeKey c', bucket m2 [i2])])] = _
    rw [rm_single_dict, hinner]
  · intro k s v2
    rw [rm_cons, mergeStep_overwrite_str (lookupVal_cons_self k (.vstr s) []) v2,
      setInPlace_cons_self, rm_nil]

/-- C7 witness: the deep-merge bucket behaviour at concrete codes 400 and
401 under path `"scf"`. -/
theorem recursive_merge_aggregation_witness :
    (recursive_merge (diagDict "scf" (Code.int 400) "m1" ["id1"])
        (diagDict "scf" (Code.int 400) "m2" ["id2"]) =
      diagDict "scf" (Code.int 400) "m2" ["id1", "id2"]) ∧
    (recursive_merge (diagDict "scf" (Code.int 400) "m1" ["id1"])
        (diagDict "scf" (Code.int 401) "m2" ["id2"]) =
      [(.ks "scf", .vdict [(codeKey (Code.int 400), bucket "m1" ["id1"]),
                           (codeKey (Code.int 401), bucket "m2" ["id2"])])]) :=
  ⟨(recursive_merge_aggregation "scf" (Code.int 400) (Code.int 401)
      "m1" "m2" "id1" "id2" (by decide)).1,
   (recursive_merge_aggregation "scf" (Code.int 400) (Code.int 401)
      "m1" "m2" "id1" "id2" (by decide)).2.1⟩

/-- A record whose diagnosis raises (epw_prep with unsuccessful root and no
declared subprocess present). -/
def c8Bad : PTree := .mk "ROOT" (exWork 305 "c8-bad") []

/-- A record whose diagnosis succeeds. -/
def c8Good : PTree :=
  .mk "ROOT"
    ⟨false, true, 0, "", "EpwPrepWorkChain", none, none, .ok (true, 0, 0),
     51, "c8-good"⟩ []

/-- C8: `get_group_status` has no exception handling around the per-record
diagnosis, so one record whose `get_state` raises aborts the whole batch: the
error propagates and no merged report is produced, even though the remaining
record on its own yields a report.  The spec requires the failure to be
skipped, so this is a divergence of the code from the claim. -/
theorem get_group_status_aborts_on_error :
    get_group_status EpwPrepWorkChainAnalyser.get_state [c8Bad, c8Good] [] =
      .error "Unknown exit status: 305" ∧
    get_group_status EpwPrepWorkChainAnalyser.get_state [c8Good] [] =
      .ok (diagDict "ROOT" (Code.int 0) "finished OK" ["c8-good"]) :=
  ⟨rfl, rfl⟩

theorem heap_get_ext {h h' : Heap} (hp : h <+: h') {a : Nat}
    (ha : a < h.length) : h'.get? a = h.get? a := by
  obtain ⟨ext, rfl⟩ := hp
  exact List.get?_append ha

theorem heap_get_concat (h : Heap) (o : HObj) :
    (h ++ [o]).get? h.length = some o :=
  List.get?_concat_length h o

theorem refsOf_ext {h h' : Heap} (hp : h <+: h') {a : Nat}
    (ha : a < h.length) : refsOf h' a = refsOf h a := by
  rw [refsOf, refsOf, heap_get_ext hp ha]

theorem mutAddr_ext {h h' : Heap} (hp : h <+: h') {a : Nat}
    (ha : a < h.length) : mutAddr h' a = mutAddr h a := by
  rw [mutAddr, mutAddr, heap_get_ext hp ha]

theorem closed_refsOf {h : Heap} (hc : ClosedHeap h) {a b : Nat}
    (hb : b ∈ refsOf h a) : b < h.length := by
  rw [refsOf] at hb
  cases hg : h.get? a with
  | none => rw [hg] at hb; cases hb
  | some o =>
    rw [hg] at hb
    exact hc o (List.get?_mem hg) b hb

theorem reaches_lt {h : Heap} (hc : ClosedHeap h) {a x : Nat}
    (ha : a < h.length) (hr : Reaches h a x) : x < h.length := by
  induction hr with
  | refl => exact ha
  | step _ hmem _ => exact closed_refsOf hc hmem

theorem reaches_prefix_iff {h h' : Heap} (hc : ClosedHeap h) (hp : h <+: h')
    {a : Nat} (ha : a < h.length) (x : Nat) :
    Reaches h' a x ↔ Reaches h a x := by
  constructor
  · intro hr
    induction hr with
    | refl => exact Reaches.refl a
    | step hab hmem ih =>
      rename_i b c
      have hb : b < h.length := reaches_lt hc ha ih
      rw [refsOf_ext hp hb] at hmem
      exact Reaches.step ih hmem
  · intro hr
    induction hr with
    | refl => exact Reaches.refl a
    | step hab hmem ih =>
      rename_i b c
      have hb : b < h.length := reaches_lt hc ha hab
      rw [← refsOf_ext hp hb] at hmem
      exact Reaches.step ih hmem

theorem reaches_trans {h : Heap} {a b c : Nat} (h1 : Reaches h a b)
    (h2 : Reaches h b c) : Reaches h a c := by
  induction h2 with
  | refl => exact h1
  | step _ hmem ih => exact Reaches.step ih hmem

theorem reaches_cases {h : Heap} {a x : Nat} (hr : Reaches h a x) :
    x = a ∨ ∃ b ∈ refsOf h a, Reaches h b x := by
  induction hr with
  | refl => exact Or.inl rfl
  | step hab hmem ih =>
    rename_i b c
    rcases ih with hba | ⟨b', hb', hr'⟩
    · subst hba
      exact Or.inr ⟨c, hmem, Reaches.refl c⟩
    · exact Or.inr ⟨b', hb', Reaches.step hr' hmem⟩

theorem reaches_of_ref {h : Heap} {a b : Nat} (hb : b ∈ refsOf h a) :
    Reaches h a b :=
  Reaches.step (Reaches.refl a) hb

theorem closed_append {h : Heap} (hc : ClosedHeap h) {o : HObj}
    (ho : ∀ b ∈ o.refs, b < h.length + 1) : ClosedHeap (h ++ [o]) := by
  intro o' ho' b hb
  rcases List.mem_append.mp ho' with hmem | hmem
  · have := hc o' hmem b hb
    simp
    omega
  · simp at hmem
    subst hmem
    have := ho b hb
    simp
    omega

theorem prefix_concat (h : Heap) (o : HObj) : h <+: h ++ [o] := ⟨[o], rfl⟩

theorem refsOf_concat_dict (h : Heap) (es : List (Key × Nat)) :
    refsOf (h ++ [HObj.hdict es]) h.length = es.map Prod.snd := by
  rw [refsOf, heap_get_concat]
  rfl

theorem refsOf_concat_list (h : Heap) (l : List Nat) :
    refsOf (h ++ [HObj.hlist l]) h.length = l := by
  rw [refsOf, heap_get_concat]
  rfl

theorem fresh_alloc_reach {h : Heap} {o : HObj} (hc : ClosedHeap h)
    (Q : Nat → Prop)
    (hrefs : ∀ b ∈ o.refs,
      b < h.length ∧ ∀ x, Reaches h b x → mutAddr h x = true → Q x) :
    ∀ x, Reaches (h ++ [o]) h.length x → mutAddr (h ++ [o]) x = true →
      x = h.length ∨ Q x := by
  intro x hr hm
  rcases reaches_cases hr with hx | ⟨b, hb, hrb⟩
  · left; exact hx
  · right
    rw [refsOf, heap_get_concat] at hb
    obtain ⟨hblt, hQ⟩ := hrefs b hb
    have hpre : h <+: h ++ [o] := prefix_concat h o
    have hrb' : Reaches h b x := (reaches_prefix_iff hc hpre hblt x).mp hrb
    have hxlt : x < h.length := reaches_lt hc hblt hrb'
    rw [mutAddr_ext hpre hxlt] at hm
    exact hQ x hrb' hm

theorem setEntryAddr_mem {ents : List (Key × Nat)} {k : Key} {v : Nat}
    {kv : Key × Nat} (h : kv ∈ setEntryAddr ents k v) :
    kv.2 = v ∨ kv ∈ ents := by
  induction ents with
  | nil => cases h
  | cons e rest ih =>
    obtain ⟨k', a'⟩ := e
    rw [setEntryAddr] at h
    by_cases hk : k' = k
    · rw [if_pos hk] at h
      rcases List.mem_cons.mp h with h1 | h1
      · left; rw [h1]
      · right; exact List.mem_cons_of_mem _ h1
    · rw [if_neg hk] at h
      rcases List.mem_cons.mp h with h1 | h1
      · right; rw [h1]; exact List.mem_cons_self _ _
      · rcases ih h1 with h2 | h2
        · left; exact h2
        · right; exact List.mem_cons_of_mem _ h2

theorem lookupAddr_mem {ents : List (Key × Nat)} {k : Key} {a : Nat}
    (h : lookupAddr ents k = some a) : ∃ k', (k', a) ∈ ents := by
  induction ents with
  | nil => cases h
  | cons e rest ih =>
    obtain ⟨k', a'⟩ := e
    rw [lookupAddr] at h
    by_cases hk : k' = k
    · rw [if_pos hk] at h
      cases h
      exact ⟨k', List.mem_cons_self _ _⟩
    · rw [if_neg hk] at h
      obtain ⟨k'', hmem⟩ := ih h
      exact ⟨k'', List.mem_cons_of_mem _ hmem⟩

/-- Specification of `deepcopyH` at a given fuel: the heap only grows and
stays closed, and every mutable address reachable from the copy is freshly
allocated (the copy shares no mutable substructure with anything
pre-existing). -/
def DeepcopySpec (fuel : Nat) : Prop :=
  ∀ (h : Heap) (a : Nat) (h' : Heap) (a' : Nat),
    ClosedHeap h → a < h.length → deepcopyH fuel h a = some (h', a') →
    h <+: h' ∧ ClosedHeap h' ∧ a' < h'.length ∧
      (∀ x, Reaches h' a' x → mutAddr h' x = true → h.length ≤ x)

/-- `copyEntries` analogue of `DeepcopySpec`, for every copied entry value. -/
def CopyEntriesSpec (fuel : Nat) : Prop :=
  ∀ (h : Heap) (es : List (Key × Nat)) (h' : Heap) (es' : List (Key × Nat)),
    ClosedHeap h → (∀ kv ∈ es, (kv : Key × Nat).2 < h.length) →
    copyEntries fuel h es = some (h', es') →
    h <+: h' ∧ ClosedHeap h' ∧
      (∀ kv ∈ es', (kv : Key × Nat).2 < h'.length ∧
        (∀ x, Reaches h' kv.2 x → mutAddr h' x = true → h.length ≤ x))

/-- `copyElems` analogue of `DeepcopySpec`, for every copied element. -/
def CopyElemsSpec (fuel : Nat) : Prop :=
  ∀ (h : Heap) (l : List Nat) (h' : Heap) (l' : List Nat),
    ClosedHeap h → (∀ b ∈ l, b < h.length) →
    copyElems fuel h l = some (h', l') →
    h <+: h' ∧ ClosedHeap h' ∧
      (∀ b ∈ l', b < h'.length ∧
        (∀ x, Reaches h' b x → mutAddr h' x = true → h.length ≤ x))

/-- Specification of `rmergeH` at a given fuel: the heap only grows and stays
closed, and every mutable address reachable from the merge result is either
freshly allocated or was a mutable address reachable from `d2` (never from
`d1`, whose content was deep-copied). -/
def MergeSpec (fuel : Nat) : Prop :=
  ∀ (h : Heap) (a1 a2 : Nat) (h' : Heap) (r : Nat),
    ClosedHeap h → a1 < h.length → a2 < h.length →
    rmergeH fuel h a1 a2 = some (h', r) →
    h <+: h' ∧ ClosedHeap h' ∧ r < h'.length ∧
      (∀ x, Reaches h' r x → mutAddr h' x = true →
        h.length ≤ x ∨ (Reaches h a2 x ∧ mutAddr h x = true))

/-- Specification of `updEntries` at a given fuel, parametrized by the
original heap size `len0` and the set `S` of old mutable addresses the
`d2`-side may legitimately contribute (instantiated with reachability from
`a2`): entry values that are fresh-or-`S` stay fresh-or-`S`. -/
def UpdSpec (fuel : Nat) : Prop :=
  ∀ (h : Heap) (ents es : List (Key × Nat)) (h' : Heap)
    (ents' : List (Key × Nat)) (len0 : Nat) (S : Nat → Prop),
    ClosedHeap h → len0 ≤ h.length → (∀ x, S x → x < len0) →
    (∀ kv ∈ ents, (kv : Key × Nat).2 < h.length ∧
      (∀ x, Reaches h kv.2 x → mutAddr h x = true → len0 ≤ x ∨ S x)) →
    (∀ kv ∈ es, (kv : Key × Nat).2 < len0 ∧
      (∀ x, Reaches h kv.2 x → mutAddr h x = true → S x)) →
    updEntries fuel h ents es = some (h', ents') →
    h <+: h' ∧ ClosedHeap h' ∧
      (∀ kv ∈ ents', (kv : Key × Nat).2 < h'.length ∧
        (∀ x, Reaches h' kv.2 x → mutAddr h' x = true → len0 ≤ x ∨ S x))

theorem reach_transfer {h1 h2 : Heap} (hc1 : ClosedHeap h1) (hp : h1 <+: h2)
    {y : Nat} (hy : y < h1.length) {P : Nat → Prop}
    (hf : ∀ x, Reaches h1 y x → mutAddr h1 x = true → P x) :
    ∀ x, Reaches h2 y x → mutAddr h2 x = true → P x := by
  intro x hr hm
  have hr1 : Reaches h1 y x := (reaches_prefix_iff hc1 hp hy x).mp hr
  have hx : x < h1.length := reaches_lt hc1 hy hr1
  rw [mutAddr_ext hp hx] at hm
  exact hf x hr1 hm

theorem refsOf_eq_of_get {h : Heap} {a : Nat} {o : HObj}
    (hg : h.get? a = some o) : refsOf h a = o.refs := by
  rw [refsOf, hg]

theorem mutAddr_eq_of_get {h : Heap} {a : Nat} {o : HObj}
    (hg : h.get? a = some o) : mutAddr h a = o.isMut := by
  rw [mutAddr, hg]

theorem copyEntries_step (fuel : Nat) (ihD : DeepcopySpec fuel)
    (ihE : CopyEntriesSpec fuel) : CopyEntriesSpec (fuel + 1) := by
  intro h es h' es' hc hes hrun
  cases es with
  | nil =>
    simp only [copyEntries, Option.some.injEq, Prod.mk.injEq] at hrun
    obtain ⟨rfl, rfl⟩ := hrun
    refine ⟨List.prefix_refl h, hc, ?_⟩
    intro kv hkv
    cases hkv
  | cons kv0 rest =>
    obtain ⟨k, a⟩ := kv0
    simp only [copyEntries] at hrun
    cases hd : deepcopyH fuel h a with
    | none => rw [hd] at hrun; cases hrun
    | some pr =>
      obtain ⟨h1, a1⟩ := pr
      rw [hd] at hrun
      dsimp only at hrun
      cases hr : copyEntries fuel h1 rest with
      | none => rw [hr] at hrun; cases hrun
      | some pr2 =>
        obtain ⟨h2, rest1⟩ := pr2
        rw [hr] at hrun
        simp only [Option.some.injEq, Prod.mk.injEq] at hrun
        obtain ⟨rfl, rfl⟩ := hrun
        have ha : a < h.length := hes (k, a) (List.mem_cons_self _ _)
        obtain ⟨hp1, hc1, ha1, hf1⟩ := ihD h a h1 a1 hc ha hd
        have hrest : ∀ kv ∈ rest, (kv : Key × Nat).2 < h1.length := by
          intro kv hkv
          have := hes kv (List.mem_cons_of_mem _ hkv)
          have hlen := hp1.length_le
          omega
        obtain ⟨hp2, hc2, hgood⟩ := ihE h1 rest h2 rest1 hc1 hrest hr
        refine ⟨hp1.trans hp2, hc2, ?_⟩
        intro kv hkv
        rcases List.mem_cons.mp hkv with h1e | h1e
        · subst h1e
          constructor
          · have := hp2.length_le
            omega
          · exact reach_transfer hc1 hp2 ha1 hf1
        · obtain ⟨hlt, hfr⟩ := hgood kv h1e
          refine ⟨hlt, ?_⟩
          intro x hxr hxm
          have := hfr x hxr hxm
          have := hp1.length_le
          omega

theorem copyElems_step (fuel : Nat) (ihD : DeepcopySpec fuel)
    (ihL : CopyElemsSpec fuel) : CopyElemsSpec (fuel + 1) := by
  intro h l h' l' hc hl hrun
  cases l with
  | nil =>
    simp only [copyElems, Option.some.injEq, Prod.mk.injEq] at hrun
    obtain ⟨rfl, rfl⟩ := hrun
    refine ⟨List.prefix_refl h, hc, ?_⟩
    intro b hb
    cases hb
  | cons a rest =>
    simp only [copyElems] at hrun
    cases hd : deepcopyH fuel h a with
    | none => rw [hd] at hrun; cases hrun
    | some pr =>
      obtain ⟨h1, a1⟩ := pr
      rw [hd] at hrun
      dsimp only at hrun
      cases hr : copyElems fuel h1 rest with
      | none => rw [hr] at hrun; cases hrun
      | some pr2 =>
        obtain ⟨h2, rest1⟩ := pr2
        rw [hr] at hrun
        simp only [Option.some.injEq, Prod.mk.injEq] at hrun
        obtain ⟨rfl, rfl⟩ := hrun
        have ha : a < h.length := hl a (List.mem_cons_self _ _)
        obtain ⟨hp1, hc1, ha1, hf1⟩ := ihD h a h1 a1 hc ha hd
        have hrest : ∀ b ∈ rest, b < h1.length := by
          intro b hb
          have := hl b (List.mem_cons_of_mem _ hb)
          have := hp1.length_le
          omega
        obtain ⟨hp2, hc2, hgood⟩ := ihL h1 rest h2 rest1 hc1 hrest hr
        refine ⟨hp1.trans hp2, hc2, ?_⟩
        intro b hb
        rcases List.mem_cons.mp hb with h1e | h1e
        · subst h1e
          constructor
          · have := hp2.length_le
            omega
          · exact reach_transfer hc1 hp2 ha1 hf1
        · obtain ⟨hlt, hfr⟩ := hgood b h1e
          refine ⟨hlt, ?_⟩
          intro x hxr hxm
          have := hfr x hxr hxm
          have := hp1.length_le
          omega

theorem deepcopy_step (fuel : Nat) (ihE : CopyEntriesSpec fuel)
    (ihL : CopyElemsSpec fuel) : DeepcopySpec (fuel + 1) := by
  intro h a h' a' hc ha hrun
  simp only [deepcopyH] at hrun
  cases hg : h.get? a with
  | none => rw [hg] at hrun; cases hrun
  | some o =>
    rw [hg] at hrun
    cases o with
    | hstr s =>
      dsimp only at hrun
      simp only [Option.some.injEq, Prod.mk.injEq] at hrun
      obtain ⟨rfl, rfl⟩ := hrun
      refine ⟨List.prefix_refl h, hc, ha, ?_⟩
      intro x hr hm
      rcases reaches_cases hr with hx | ⟨b, hb, _⟩
      · subst hx
        rw [mutAddr_eq_of_get hg] at hm
        cases hm
      · rw [refsOf_eq_of_get hg] at hb
        cases hb
    | hint i =>
      dsimp only at hrun
      simp only [Option.some.injEq, Prod.mk.injEq] at hrun
      obtain ⟨rfl, rfl⟩ := hrun
      refine ⟨List.prefix_refl h, hc, ha, ?_⟩
      intro x hr hm
      rcases reaches_cases hr with hx | ⟨b, hb, _⟩
      · subst hx
        rw [mutAddr_eq_of_get hg] at hm
        cases hm
      · rw [refsOf_eq_of_get hg] at hb
        cases hb
    | hdict es =>
      dsimp only at hrun
      cases he : copyEntries fuel h es with
      | none => rw [he] at hrun; cases hrun
      | some pr =>
        obtain ⟨h1, es1⟩ := pr
        rw [he] at hrun
        simp only [Option.some.injEq, Prod.mk.injEq] at hrun
        obtain ⟨rfl, rfl⟩ := hrun
        have hes : ∀ kv ∈ es, (kv : Key × Nat).2 < h.length := by
          intro kv hkv
          apply hc (HObj.hdict es) (List.get?_mem hg)
          rw [HObj.refs]
          exact List.mem_map_of_mem Prod.snd hkv
        obtain ⟨hp1, hc1, hgood⟩ := ihE h es h1 es1 hc hes he
        have hrefs1 : ∀ b ∈ (HObj.hdict es1).refs, b < h1.length := by
          intro b hb
          rw [HObj.refs] at hb
          obtain ⟨kv, hkv, rfl⟩ := List.mem_map.mp hb
          exact (hgood kv hkv).1
        refine ⟨hp1.trans (prefix_concat h1 _), ?_, ?_, ?_⟩
        · apply closed_append hc1
          intro b hb
          have := hrefs1 b hb
          omega
        · simp
        · have := fresh_alloc_reach (o := HObj.hdict es1) hc1
            (fun x => h.length ≤ x) ?_
          · intro x hr hm
            rcases this x hr hm with hx | hx
            · have := hp1.length_le
              omega
            · exact hx
          · intro b hb
            rw [HObj.refs] at hb
            obtain ⟨kv, hkv, rfl⟩ := List.mem_map.mp hb
            exact (hgood kv hkv)
    | hlist l =>
      dsimp only at hrun
      cases he : copyElems fuel h l with
      | none => rw [he] at hrun; cases hrun
      | some pr =>
        obtain ⟨h1, l1⟩ := pr
        rw [he] at hrun
        simp only [Option.some.injEq, Prod.mk.injEq] at hrun
        obtain ⟨rfl, rfl⟩ := hrun
        have hl : ∀ b ∈ l, b < h.length := by
          intro b hb
          apply hc (HObj.hlist l) (List.get?_mem hg)
          rw [HObj.refs]
          exact hb
        obtain ⟨hp1, hc1, hgood⟩ := ihL h l h1 l1 hc hl he
        have hrefs1 : ∀ b ∈ (HObj.hlist l1).refs, b < h1.length := by
          intro b hb
          rw [HObj.refs] at hb
          exact (hgood b hb).1
        refine ⟨hp1.trans (prefix_concat h1 _), ?_, ?_, ?_⟩
        · apply closed_append hc1
          intro b hb
          have := hrefs1 b hb
          omega
        · simp
        · have := fresh_alloc_reach (o := HObj.hlist l1) hc1
            (fun x => h.length ≤ x) ?_
          · intro x hr hm
            rcases this x hr hm with hx | hx
            · have := hp1.length_le
              omega
            · exact hx
          · intro b hb
            rw [HObj.refs] at hb
            exact hgood b hb

/-- Invariant of an entry list: every value is a valid address whose mutable
reach is fresh (at or above `len0`) or in `S`. -/
def EntsInv (h : Heap) (len0 : Nat) (S : Nat → Prop)
    (ents : List (Key × Nat)) : Prop :=
  ∀ kv ∈ ents, (kv : Key × Nat).2 < h.length ∧
    (∀ x, Reaches h kv.2 x → mutAddr h x = true → len0 ≤ x ∨ S x)

/-- Invariant of the pending `d2` entries: old addresses whose mutable reach
lies in `S`. -/
def PendInv (h : Heap) (len0 : Nat) (S : Nat → Prop)
    (es : List (Key × Nat)) : Prop :=
  ∀ kv ∈ es, (kv : Key × Nat).2 < len0 ∧
    (∀ x, Reaches h kv.2 x → mutAddr h x = true → S x)

theorem ents_inv_transfer {h h1 : Heap} {len0 : Nat} {S : Nat → Prop}
    {ents : List (Key × Nat)} (hc : ClosedHeap h) (hp : h <+: h1)
    (hold : EntsInv h len0 S ents) : EntsInv h1 len0 S ents := by
  intro kv hkv
  obtain ⟨hl, hf⟩ := hold kv hkv
  exact ⟨lt_of_lt_of_le hl hp.length_le, reach_transfer hc hp hl hf⟩

theorem setEntry_inv {h1 : Heap} {len0 : Nat} {S : Nat → Prop}
    {ents : List (Key × Nat)} {k : Key} {c : Nat}
    (hcv : c < h1.length ∧
      (∀ x, Reaches h1 c x → mutAddr h1 x = true → len0 ≤ x ∨ S x))
    (hold : EntsInv h1 len0 S ents) :
    EntsInv h1 len0 S (setEntryAddr ents k c) := by
  intro kv hkv
  rcases setEntryAddr_mem hkv with hv | hv
  · rw [hv]
    exact hcv
  · exact hold kv hv

theorem pend_inv_transfer {h h1 : Heap} {len0 : Nat} {S : Nat → Prop}
    {es : List (Key × Nat)} (hc : ClosedHeap h) (hp : h <+: h1)
    (hlen : len0 ≤ h.length) (hold : PendInv h len0 S es) :
    PendInv h1 len0 S es := by
  intro kv hkv
  obtain ⟨hl, hf⟩ := hold kv hkv
  exact ⟨hl, reach_transfer hc hp (lt_of_lt_of_le hl hlen) hf⟩

theorem upd_step_cont (fuel : Nat) (ihU : UpdSpec fuel)
    {h h1 : Heap} {newEnts rest : List (Key × Nat)} {h' : Heap}
    {ents' : List (Key × Nat)} {len0 : Nat} {S : Nat → Prop}
    (hc : ClosedHeap h) (hp1 : h <+: h1) (hc1 : ClosedHeap h1)
    (hlen : len0 ≤ h.length) (hS : ∀ x, S x → x < len0)
    (hnew : EntsInv h1 len0 S newEnts)
    (hrest : PendInv h len0 S rest)
    (hrun : updEntries fuel h1 newEnts rest = some (h', ents')) :
    h <+: h' ∧ ClosedHeap h' ∧ EntsInv h' len0 S ents' := by
  obtain ⟨hp2, hc2, hfin⟩ := ihU h1 newEnts rest h' ents' len0 S hc1
    (le_trans hlen hp1.length_le) hS hnew
    (pend_inv_transfer hc hp1 hlen hrest) hrun
  exact ⟨hp1.trans hp2, hc2, hfin⟩

theorem upd_leaf_deepcopy_set (fuel : Nat) (ihD : DeepcopySpec fuel)
    (ihU : UpdSpec fuel)
    {h : Heap} {ents rest : List (Key × Nat)} {k : Key} {va2 : Nat}
    {h' : Heap} {ents' : List (Key × Nat)} {len0 : Nat} {S : Nat → Prop}
    (hc : ClosedHeap h) (hlen : len0 ≤ h.length) (hS : ∀ x, S x → x < len0)
    (hents : EntsInv h len0 S ents)
    (hva2 : va2 < len0)
    (hrest : PendInv h len0 S rest)
    (hrun : (match deepcopyH fuel h va2 with
      | none => none
      | some (h1, c) => updEntries fuel h1 (setEntryAddr ents k c) rest) =
        some (h', ents')) :
    h <+: h' ∧ ClosedHeap h' ∧ EntsInv h' len0 S ents' := by
  cases hd : deepcopyH fuel h va2 with
  | none => rw [hd] at hrun; cases hrun
  | some pr =>
    obtain ⟨h1, c⟩ := pr
    rw [hd] at hrun
    dsimp only at hrun
    obtain ⟨hp1, hc1, hcl, hfr⟩ := ihD h va2 h1 c hc (lt_of_lt_of_le hva2 hlen) hd
    apply upd_step_cont fuel ihU hc hp1 hc1 hlen hS ?_ hrest hrun
    apply setEntry_inv ?_ (ents_inv_transfer hc hp1 hents)
    refine ⟨hcl, ?_⟩
    intro x hxr hxm
    left
    have := hfr x hxr hxm
    omega

theorem upd_leaf_deepcopy_append (fuel : Nat) (ihD : DeepcopySpec fuel)
    (ihU : UpdSpec fuel)
    {h : Heap} {ents rest : List (Key × Nat)} {k : Key} {va2 : Nat}
    {h' : Heap} {ents' : List (Key × Nat)} {len0 : Nat} {S : Nat → Prop}
    (hc : ClosedHeap h) (hlen : len0 ≤ h.length) (hS : ∀ x, S x → x < len0)
    (hents : EntsInv h len0 S ents)
    (hva2 : va2 < len0)
    (hrest : PendInv h len0 S rest)
    (hrun : (match deepcopyH fuel h va2 with
      | none => none
      | some (h1, c) => updEntries fuel h1 (ents ++ [(k, c)]) rest) =
        some (h', ents')) :
    h <+: h' ∧ ClosedHeap h' ∧ EntsInv h' len0 S ents' := by
  cases hd : deepcopyH fuel h va2 with
  | none => rw [hd] at hrun; cases hrun
  | some pr =>
    obtain ⟨h1, c⟩ := pr
    rw [hd] at hrun
    dsimp only at hrun
    obtain ⟨hp1, hc1, hcl, hfr⟩ := ihD h va2 h1 c hc (lt_of_lt_of_le hva2 hlen) hd
    apply upd_step_cont fuel ihU hc hp1 hc1 hlen hS ?_ hrest hrun
    intro kv hkv
    rcases List.mem_append.mp hkv with hm | hm
    · exact ents_inv_transfer hc hp1 hents kv hm
    · simp at hm
      subst hm
      refine ⟨hcl, ?_⟩
      intro x hxr hxm
      left
      have := hfr x hxr hxm
      omega

theorem upd_step (fuel : Nat) (ihM : MergeSpec fuel) (ihD : DeepcopySpec fuel)
    (ihU : UpdSpec fuel) : UpdSpec (fuel + 1) := by
  intro h ents es h' ents' len0 S hc hlen hS hents hes hrun
  cases es with
  | nil =>
    simp only [updEntries, Option.some.injEq, Prod.mk.injEq] at hrun
    obtain ⟨rfl, rfl⟩ := hrun
    exact ⟨List.prefix_refl h, hc, hents⟩
  | cons kv0 rest =>
    obtain ⟨k, va2⟩ := kv0
    simp only [updEntries] at hrun
    have hhead := hes (k, va2) (List.mem_cons_self _ _)
    have hrest : PendInv h len0 S rest :=
      fun kv hkv => hes kv (List.mem_cons_of_mem _ hkv)
    cases hlk : lookupAddr ents k with
    | none =>
      rw [hlk] at hrun
      exact upd_leaf_deepcopy_append fuel ihD ihU hc hlen hS hents hhead.1
        hrest hrun
    | some vm =>
      rw [hlk] at hrun
      dsimp only at hrun
      obtain ⟨k', hvm_mem⟩ := lookupAddr_mem hlk
      have hvm := hents (k', vm) hvm_mem
      cases hgv : h.get? vm with
      | none =>
        rw [hgv] at hrun
        exact upd_leaf_deepcopy_set fuel ihD ihU hc hlen hS hents hhead.1
          hrest hrun
      | some ov =>
        rw [hgv] at hrun
        cases hgw : h.get? va2 with
        | none =>
          rw [hgw] at hrun
          cases ov <;>
            exact upd_leaf_deepcopy_set fuel ihD ihU hc hlen hS hents hhead.1
              hrest hrun
        | some ow =>
          rw [hgw] at hrun
          cases ov with
          | hstr s =>
            exact upd_leaf_deepcopy_set fuel ihD ihU hc hlen hS hents hhead.1
              hrest hrun
          | hint i =>
            exact upd_leaf_deepcopy_set fuel ihD ihU hc hlen hS hents hhead.1
              hrest hrun
          | hdict e1x =>
            cases ow with
            | hlist l2 =>
              exact upd_leaf_deepcopy_set fuel ihD ihU hc hlen hS hents
                hhead.1 hrest hrun
            | hstr s =>
              exact upd_leaf_deepcopy_set fuel ihD ihU hc hlen hS hents
                hhead.1 hrest hrun
            | hint i =>
              exact upd_leaf_deepcopy_set fuel ihD ihU hc hlen hS hents
                hhead.1 hrest hrun
            | hdict e2x =>
              dsimp only at hrun
              cases hm : rmergeH fuel h vm va2 with
              | none => rw [hm] at hrun; cases hrun
              | some pr =>
                obtain ⟨h1, rnew⟩ := pr
                rw [hm] at hrun
                dsimp only at hrun
                obtain ⟨hp1, hc1, hrl, hrf⟩ := ihM h vm va2 h1 rnew hc hvm.1
                  (lt_of_lt_of_le hhead.1 hlen) hm
                apply upd_step_cont fuel ihU hc hp1 hc1 hlen hS ?_ hrest hrun
                apply setEntry_inv ?_ (ents_inv_transfer hc hp1 hents)
                refine ⟨hrl, ?_⟩
                intro x hxr hxm
                rcases hrf x hxr hxm with hge | ⟨hra, hma⟩
                · left
                  omega
                · right
                  exact hhead.2 x hra hma
          | hlist l1 =>
            cases ow with
            | hdict e2x =>
              exact upd_leaf_deepcopy_set fuel ihD ihU hc hlen hS hents
                hhead.1 hrest hrun
            | hstr s =>
              exact upd_leaf_deepcopy_set fuel ihD ihU hc hlen hS hents
                hhead.1 hrest hrun
            | hint i =>
              exact upd_leaf_deepcopy_set fuel ihD ihU hc hlen hS hents
                hhead.1 hrest hrun
            | hlist l2 =>
              dsimp only at hrun
              have hl1 : ∀ b ∈ l1, b ∈ refsOf h vm := by
                intro b hb
                rw [refsOf_eq_of_get hgv]
                exact hb
              have hl2 : ∀ b ∈ l2, b ∈ refsOf h va2 := by
                intro b hb
                rw [refsOf_eq_of_get hgw]
                exact hb
              have hrefs_bound : ∀ b ∈ l1 ++ l2, b < h.length := by
                intro b hb
                rcases List.mem_append.mp hb with hm | hm
                · exact closed_refsOf hc (hl1 b hm)
                · exact closed_refsOf hc (hl2 b hm)
              have hp1 := prefix_concat h (HObj.hlist (l1 ++ l2))
              have hc1 : ClosedHeap (h ++ [HObj.hlist (l1 ++ l2)]) := by
                apply closed_append hc
                intro b hb
                rw [HObj.refs] at hb
                have := hrefs_bound b hb
                omega
              have hLreach := fresh_alloc_reach (o := HObj.hlist (l1 ++ l2)) hc
                (fun x => len0 ≤ x ∨ S x) ?_
              · apply upd_step_cont fuel ihU hc hp1 hc1 hlen hS ?_ hrest hrun
                apply setEntry_inv ?_ (ents_inv_transfer hc hp1 hents)
                constructor
                · simp
                · intro x hxr hxm
                  rcases hLreach x hxr hxm with hx | hx
                  · left
                    omega
                  · exact hx
              · intro b hb
                rw [HObj.refs] at hb
                rcases List.mem_append.mp hb with hm | hm
                · refine ⟨closed_refsOf hc (hl1 b hm), ?_⟩
                  intro x hxr hxm
                  exact hvm.2 x (reaches_trans (reaches_of_ref (hl1 b hm)) hxr) hxm
                · refine ⟨closed_refsOf hc (hl2 b hm), ?_⟩
                  intro x hxr hxm
                  right
                  exact hhead.2 x
                    (reaches_trans (reaches_of_ref (hl2 b hm)) hxr) hxm

theorem merge_step (fuel : Nat) (ihE : CopyEntriesSpec fuel)
    (ihU : UpdSpec fuel) : MergeSpec (fuel + 1) := by
  intro h a1 a2 h' r hc ha1 ha2 hrun
  simp only [rmergeH] at hrun
  cases hg1 : h.get? a1 with
  | none => rw [hg1] at hrun; cases hrun
  | some o1 =>
    rw [hg1] at hrun
    cases hg2 : h.get? a2 with
    | none =>
      rw [hg2] at hrun
      cases o1 <;> cases hrun
    | some o2 =>
      rw [hg2] at hrun
      cases o1 with
      | hstr s => cases o2 <;> cases hrun
      | hint i => cases o2 <;> cases hrun
      | hlist l => cases o2 <;> cases hrun
      | hdict e1 =>
        cases o2 with
        | hstr s => cases hrun
        | hint i => cases hrun
        | hlist l => cases hrun
        | hdict e2 =>
          dsimp only at hrun
          cases he : copyEntries fuel h e1 with
          | none => rw [he] at hrun; cases hrun
          | some pr =>
            obtain ⟨h1, ce1⟩ := pr
            rw [he] at hrun
            dsimp only at hrun
            cases hu : updEntries fuel h1 ce1 e2 with
            | none => rw [hu] at hrun; cases hrun
            | some pr2 =>
              obtain ⟨h2, ents⟩ := pr2
              rw [hu] at hrun
              simp only [Option.some.injEq, Prod.mk.injEq] at hrun
              obtain ⟨rfl, rfl⟩ := hrun
              have he1vals : ∀ kv ∈ e1, (kv : Key × Nat).2 < h.length := by
                intro kv hkv
                apply closed_refsOf hc (a := a1)
                rw [refsOf_eq_of_get hg1, HObj.refs]
                exact List.mem_map_of_mem Prod.snd hkv
              obtain ⟨hp1, hc1, hgood⟩ := ihE h e1 h1 ce1 hc he1vals he
              have hce1 : EntsInv h1 h.length
                  (fun x => Reaches h a2 x ∧ mutAddr h x = true) ce1 := by
                intro kv hkv
                obtain ⟨hl, hf⟩ := hgood kv hkv
                exact ⟨hl, fun x hr hm => Or.inl (hf x hr hm)⟩
              have he2pend : PendInv h1 h.length
                  (fun x => Reaches h a2 x ∧ mutAddr h x = true) e2 := by
                apply pend_inv_transfer hc hp1 (le_refl h.length)
                intro kv hkv
                have hkvref : kv.2 ∈ refsOf h a2 := by
                  rw [refsOf_eq_of_get hg2, HObj.refs]
                  exact List.mem_map_of_mem Prod.snd hkv
                refine ⟨closed_refsOf hc hkvref, ?_⟩
                intro x hxr hxm
                exact ⟨reaches_trans (reaches_of_ref hkvref) hxr, hxm⟩
              obtain ⟨hp2, hc2, hfin⟩ := ihU h1 ce1 e2 h2 ents h.length
                (fun x => Reaches h a2 x ∧ mutAddr h x = true) hc1
                hp1.length_le (fun x hx => reaches_lt hc ha2 hx.1) hce1
                he2pend hu
              have hentrefs : ∀ b ∈ (HObj.hdict ents).refs, b < h2.length := by
                intro b hb
                rw [HObj.refs] at hb
                obtain ⟨kv, hkv, rfl⟩ := List.mem_map.mp hb
                exact (hfin kv hkv).1
              refine ⟨(hp1.trans hp2).trans (prefix_concat h2 _), ?_, ?_, ?_⟩
              · apply closed_append hc2
                intro b hb
                have := hentrefs b hb
                omega
              · simp
              · have hfr := fresh_alloc_reach (o := HObj.hdict ents) hc2
                  (fun x => h.length ≤ x ∨
                    (Reaches h a2 x ∧ mutAddr h x = true)) ?_
                · intro x hr hm
                  rcases hfr x hr hm with hx | hx
                  · left
                    have l1 := hp1.length_le
                    have l2 := hp2.length_le
                    omega
                  · exact hx
                · intro b hb
                  rw [HObj.refs] at hb
                  obtain ⟨kv, hkv, rfl⟩ := List.mem_map.mp hb
                  exact hfin kv hkv

theorem heap_specs : ∀ fuel : Nat, DeepcopySpec fuel ∧ CopyEntriesSpec fuel ∧
    CopyElemsSpec fuel ∧ MergeSpec fuel ∧ UpdSpec fuel := by
  intro fuel
  induction fuel with
  | zero =>
    refine ⟨?_, ?_, ?_, ?_, ?_⟩
    · intro h a h' a' _ _ hrun
      simp [deepcopyH] at hrun
    · intro h es h' es' _ _ hrun
      simp [copyEntries] at hrun
    · intro h l h' l' _ _ hrun
      simp [copyElems] at hrun
    · intro h a1 a2 h' r _ _ _ hrun
      simp [rmergeH] at hrun
    · intro h ents es h' ents' len0 S _ _ _ _ _ hrun
      simp [updEntries] at hrun
  | succ n ih =>
    obtain ⟨ihD, ihE, ihL, ihM, ihU⟩ := ih
    exact ⟨deepcopy_step n ihE ihL, copyEntries_step n ihD ihE,
      copyElems_step n ihD ihL, merge_step n ihE ihU, upd_step n ihM ihD ihU⟩

theorem reaches_in_region {h : Heap} {R : List Nat}
    (hR : ∀ y ∈ R, ∀ b ∈ refsOf h y, b ∈ R) {a : Nat} (ha : a ∈ R) {x : Nat}
    (hx : Reaches h a x) : x ∈ R := by
  induction hx with
  | refl => exact ha
  | step hab hmem ih => exact hR _ ih _ hmem

/-- C10 (amended): `recursive_merge` at heap level leaves every pre-existing
object — in particular all of `d1` and `d2` — unchanged (the heap only
grows), and provided `d1` and `d2` share no mutable substructure with each
other, the returned dictionary shares no mutable substructure with `d1`.
The proviso is necessary: when the inputs alias each other, the list-concat
rule (`value_merged + value_d2`, which aliases `d2`'s list elements into the
result) can alias an object also reachable from `d1` (see the
counterexample). -/
theorem rmergeH_frame_and_no_sharing (fuel : Nat) (h h' : Heap)
    (a1 a2 r : Nat) (hc : ClosedHeap h) (ha1 : a1 < h.length)
    (ha2 : a2 < h.length) (hrun : rmergeH fuel h a1 a2 = some (h', r))
    (hdisj : ∀ x, Reaches h a1 x → Reaches h a2 x → mutAddr h x = true →
      False) :
    (∀ a, a < h.length → h'.get? a = h.get? a) ∧
    (∀ x, Reaches h' r x → Reaches h' a1 x → mutAddr h' x = true → False) := by
  obtain ⟨hp, hc', hr, hreach⟩ :=
    (heap_specs fuel).2.2.2.1 h a1 a2 h' r hc ha1 ha2 hrun
  constructor
  · intro a ha
    exact heap_get_ext hp ha
  · intro x hx1 hx2 hm
    have hx2' : Reaches h a1 x := (reaches_prefix_iff hc hp ha1 x).mp hx2
    have hxlt : x < h.length := reaches_lt hc ha1 hx2'
    have hm' : mutAddr h x = true := by
      rw [← mutAddr_ext hp hxlt]
      exact hm
    rcases hreach x hx1 hm with hge | ⟨hra2, hma2⟩
    · omega
    · exact hdisj x hx2' hra2 hm'

/-- Disjoint inputs: `d1 = {"k": []}` at address 0 (list at 1) and
`d2 = {"k": []}` at address 2 (list at 3). -/
def c10Heap : Heap :=
  [HObj.hdict [(Key.ks "k", 1)], HObj.hlist [],
   HObj.hdict [(Key.ks "k", 3)], HObj.hlist []]

/-- The heap after merging the two disjoint dicts: the copy of `d1`'s list
(4), the concatenated list (5), and the merged dict (6). -/
def c10HeapOut : Heap :=
  [HObj.hdict [(Key.ks "k", 1)], HObj.hlist [],
   HObj.hdict [(Key.ks "k", 3)], HObj.hlist [],
   HObj.hlist [], HObj.hlist [], HObj.hdict [(Key.ks "k", 5)]]

/-- C10 witness: the amended statement on the disjoint example — `d1` and
`d2` (addresses below 4) are untouched and the result at 6 shares no mutable
address with `d1`. -/
theorem rmergeH_frame_and_no_sharing_witness :
    (∀ a, a < c10Heap.length → c10HeapOut.get? a = c10Heap.get? a) ∧
    (∀ x, Reaches c10HeapOut 6 x → Reaches c10HeapOut 0 x →
      mutAddr c10HeapOut x = true → False) :=
  rmergeH_frame_and_no_sharing 10 c10Heap c10HeapOut 0 2 6 (by decide)
    (by decide) (by decide) rfl
    (by
      intro x h1 h2 _
      have m1 : x ∈ [0, 1] :=
        reaches_in_region (by decide) (by decide) h1
      have m2 : x ∈ [2, 3] :=
        reaches_in_region (by decide) (by decide) h2
      simp at m1 m2
      rcases m1 with rfl | rfl <;> simp at m2)

/-- Aliased inputs: the mutable list `x = []` at address 0 is an element of
both `d1`'s list (address 2) and `d2`'s list (address 4);
`d1 = {"k": [x]}` at 1 and `d2 = {"k": [x]}` at 3. -/
def c10Aliased : Heap :=
  [HObj.hlist [], HObj.hdict [(Key.ks "k", 2)], HObj.hlist [0],
   HObj.hdict [(Key.ks "k", 4)], HObj.hlist [0]]

/-- The heap after the aliased merge: the copies of `x` (5) and of `d1`'s
list (6), the concatenated list (7) whose second element aliases `x`, and
the merged dict (8). -/
def c10AliasedOut : Heap :=
  [HObj.hlist [], HObj.hdict [(Key.ks "k", 2)], HObj.hlist [0],
   HObj.hdict [(Key.ks "k", 4)], HObj.hlist [0],
   HObj.hlist [], HObj.hlist [5], HObj.hlist [5, 0],
   HObj.hdict [(Key.ks "k", 7)]]

/-- C10: counterexample to the claim as stated.  Merging the aliased dicts,
the returned dictionary (address 8) reaches the mutable list at address 0
through the concatenated list (8 to 7 to 0), and so does `d1` (1 to 2 to 0):
the result shares mutable substructure with `d1`, because the list-concat
rule aliases `d2`'s list elements instead of deep-copying them. -/
theorem rmergeH_shares_with_d1_counterexample :
    rmergeH 10 c10Aliased 1 3 = some (c10AliasedOut, 8) ∧
    Reaches c10AliasedOut 8 0 ∧ Reaches c10AliasedOut 1 0 ∧
    mutAddr c10AliasedOut 0 = true := by
  refine ⟨rfl, ?_, ?_, rfl⟩
  · have s1 : (7 : Nat) ∈ refsOf c10AliasedOut 8 := by decide
    have s2 : (0 : Nat) ∈ refsOf c10AliasedOut 7 := by decide
    exact Reaches.step (Reaches.step (Reaches.refl 8) s1) s2
  · have s1 : (2 : Nat) ∈ refsOf c10AliasedOut 1 := by decide
    have s2 : (0 : Nat) ∈ refsOf c10AliasedOut 2 := by decide
    exact Reaches.step (Reaches.step (Reaches.refl 1) s1) s2

/-- C9 witness: the level-order characterization evaluated on the example
tree. -/
theorem find_last_node_eq_levelorder_last_witness :
    (levelsFrom [c9Tree]).getLast? = some (find_last_node c9Tree) :=
  find_last_node_eq_levelorder_last c9Tree
